import Mathlib

/-!
# Logger_async: a shallow embedding of `source/Logger_async.cpp`

The asynchronous logger keeps a registry `outputs_` from thread identities to
lists of output objects, a FIFO `messages_queue` of `(thread id, payload)`
entries and a flag `stop_daemon`.  Producers call `add_output`, `add_log` and
`remove_thread_ouput`; the daemon thread pops one entry per loop iteration,
formats it and writes it to every output registered for the entry's identity.

Modelling conventions.
* A `std::string` is a Lean `String`, one Lean `Char` per C++ `char`.
* `std::unordered_map` and the file system are association lists.
* Every call of `Logger_async`, and every iteration of the loop of
  `daemon_thread`, is one atomic transition.  (Within an iteration the lock is
  released between the pop and the dispatch; a producer call that falls in that
  gap only touches the back of the queue and the registry, and has the same
  effect as the same call made just before the iteration.)
* The clock is an input: the iteration receives the string that `get_time()`
  returns for it.
* Opening a file is assumed to succeed.
* Three history fields that the C++ object does not have record what happened:
  `World.trace` (every `write_log` call: object and message), `State.popped`
  (the queue entries the daemon has popped) and `State.fresh` (the identity given
  to the next output object).
-/

namespace Logger_async

/-! ## Association lists -/

section Assoc

variable {κ α : Type} [DecidableEq κ]

/-- Lookup of a key, as in `unordered_map::find`; `none` stands for `end()`. -/
def find : List (κ × α) → κ → Option α
  | [], _ => none
  | (k', v) :: m, k => if k' = k then some v else find m k

/-- Set the value stored under a key, adding the key at the end when it is absent. -/
def assign : List (κ × α) → κ → α → List (κ × α)
  | [], k, v => [(k, v)]
  | (k', v') :: m, k, v => if k' = k then (k, v) :: m else (k', v') :: assign m k v

/-- Remove a key, as in `unordered_map::erase`. -/
def erase : List (κ × α) → κ → List (κ × α)
  | [], _ => []
  | (k', v') :: m, k => if k' = k then erase m k else (k', v') :: erase m k

end Assoc

/-! ## Strings, streams and files -/

/-- The type `std::thread::id`. The standard gives equal ids the same text under `operator<<` and
distinct ids distinct texts, so an id is represented by that text. -/
structure thread.id where
  text : String
deriving DecidableEq, Repr

/-- The template `convert_to_str`, at `std::thread::id`: the text `strm << data` produces. -/
def convert_to_str (data : thread.id) : String := data.text

/-- The constant `Lg_START` of the header. -/
def Lg_START : String := "Logger_START"

/-- The constant `Lg_STOP` of the header. -/
def Lg_STOP : String := "Logger_STOP"

/-- The constant `Thread_REMOVE` of the header. -/
def Thread_REMOVE : String := "Thread_RM"

/-- The call `std::getline(stream, token, delimiter)` on the unread characters of a stream:
`none` when no character could be extracted (the stream is at its end, the call fails),
otherwise the token and the characters left unread.  The delimiter is extracted and dropped. -/
def getline (delimiter : Char) : List Char → Option (List Char × List Char)
  | [] => none
  | c :: cs =>
    if c = delimiter then some ([], cs)
    else
      match getline delimiter cs with
      | none => some ([c], [])
      | some (token, rest) => some (c :: token, rest)

/-- The loop `while (std::getline(tokenStream, token, delimiter)) data.push_back(token);`,
with a bound on the number of iterations. -/
def split_loop (delimiter : Char) : Nat → List Char → List (List Char)
  | 0, _ => []
  | fuel + 1, tokenStream =>
    match getline delimiter tokenStream with
    | none => []
    | some (token, rest) => token :: split_loop delimiter fuel rest

/-- The method `CSV_Log::split`.  Every successful `getline` consumes a character, so
`message.length + 1` iterations are enough (`split_loop_fuel`). -/
def CSV_Log.split (message : String) (delimiter : Char) : List String :=
  (split_loop delimiter (message.length + 1) message.data).map String.mk

/-- A file system: path and content of every file. -/
abbrev Files := List (String × String)

/-- The content of a file, empty when the file does not exist. -/
def content (files : Files) (path : String) : String := (find files path).getD ""

/-- A `std::ofstream` member `file_`: the file it was opened on, whether it was opened with
`std::ios::app`, and its put position (used when it was not). -/
structure ofstream where
  filename : String
  app : Bool
  pos : Nat
deriving DecidableEq, Repr

/-- The call `file_.open(filename, std::ios::out | std::ios::app)` when `append_` holds, which
creates the file or keeps its content, and `file_.open(filename)` otherwise, which creates or
truncates it. -/
def ofstream_open (filename : String) (append_ : Bool) (files : Files) : ofstream × Files :=
  if append_ then
    ({ filename := filename, app := true, pos := 0 }, assign files filename (content files filename))
  else
    ({ filename := filename, app := false, pos := 0 }, assign files filename "")

/-- Writing `data` into a file at offset `pos`: the bytes there are overwritten, and a gap
between the end of the file and `pos` is filled with zero bytes. -/
def pwrite (old : List Char) (pos : Nat) (data : List Char) : List Char :=
  old.take pos ++ List.replicate (pos - old.length) (Char.ofNat 0) ++ data
    ++ old.drop (pos + data.length)

/-- The flushed output `file_ << data` (every `write_log` ends with `std::endl`): at the end of
the file for a stream opened with `std::ios::app`, at the put position of the stream otherwise. -/
def ofstream.put (file_ : ofstream) (data : String) (files : Files) : ofstream × Files :=
  if file_.app then
    (file_, assign files file_.filename (content files file_.filename ++ data))
  else
    ({ file_ with pos := file_.pos + data.length },
      assign files file_.filename
        (String.mk (pwrite (content files file_.filename).data file_.pos data.data)))

/-- The enumeration `Log_type`. -/
inductive Log_type where
  | Console
  | FileLog
  | CSVLog
deriving DecidableEq, Repr

/-- An object of one of the three classes derived from `Output`, as held through a
`std::shared_ptr<Output>`; `obj` is the identity of the object. -/
inductive Output where
  | Console_Log (obj : Nat)
  | File_Log (obj : Nat) (file_ : ofstream)
  | CSV_Log (obj : Nat) (file_ : ofstream)
deriving DecidableEq, Repr

/-- The identity of an output object. -/
def Output.obj : Output → Nat
  | Output.Console_Log obj => obj
  | Output.File_Log obj _ => obj
  | Output.CSV_Log obj _ => obj

/-- What lies outside the logger: the file system, the characters sent to `std::cout`, and the
history of `write_log` calls (object written to, message received). -/
structure World where
  files : Files
  cout : String
  trace : List (Nat × String)
deriving DecidableEq, Repr

/-- The constructor `File_Log::File_Log`. -/
def File_Log.new (obj : Nat) (filename : String) (append_ : Bool) (files : Files) :
    Output × Files :=
  let filename := if filename = "" then "logs/log.txt" else filename
  let opened := ofstream_open filename append_ files
  (Output.File_Log obj opened.1, opened.2)

/-- The constructor `CSV_Log::CSV_Log`. -/
def CSV_Log.new (obj : Nat) (filename : String) (append_ : Bool) (files : Files) :
    Output × Files :=
  let filename := if filename = "" then "logs/log.csv" else filename
  let opened := ofstream_open filename append_ files
  (Output.CSV_Log obj opened.1, opened.2)

/-- The method `Console_Log::write_log`: `std::cout << message << std::endl`. -/
def Console_Log.write_log (message : String) (cout : String) : String :=
  cout ++ message ++ "\n"

/-- The method `File_Log::write_log`: `file_ << message << std::endl`. -/
def File_Log.write_log (file_ : ofstream) (message : String) (files : Files) :
    ofstream × Files :=
  file_.put (message ++ "\n") files

/-- The method `CSV_Log::write_log`.  `data[0]`, `data[1]` and `data[2]` are unchecked vector
accesses: with fewer than three fields the behaviour is undefined, which is `none` here. -/
def CSV_Log.write_log (file_ : ofstream) (message : String) (files : Files) :
    Option (ofstream × Files) :=
  match CSV_Log.split message '-' with
  | d0 :: d1 :: d2 :: _ => some (file_.put (d0 ++ "," ++ d1 ++ "," ++ d2 ++ "\n") files)
  | _ => none

/-- The virtual call `output->write_log(message)`; the call is recorded in the trace. -/
def Output.write_log (output : Output) (message : String) (w : World) :
    Option (Output × World) :=
  match output with
  | Output.Console_Log obj =>
    some (Output.Console_Log obj,
      { w with cout := Console_Log.write_log message w.cout,
               trace := w.trace ++ [(obj, message)] })
  | Output.File_Log obj file_ =>
    let r := File_Log.write_log file_ message w.files
    some (Output.File_Log obj r.1, { w with files := r.2, trace := w.trace ++ [(obj, message)] })
  | Output.CSV_Log obj file_ =>
    match CSV_Log.write_log file_ message w.files with
    | none => none
    | some r =>
      some (Output.CSV_Log obj r.1, { w with files := r.2, trace := w.trace ++ [(obj, message)] })

/-! ## The logger -/

/-- The members of a `Logger_async` object (`outputs_`, `messages_queue`, `stop_daemon`), the
world around it, and the two history fields `popped` and `fresh`. -/
structure State where
  outputs_ : List (thread.id × List Output)
  messages_queue : List (thread.id × String)
  stop_daemon : Bool
  world : World
  popped : List (thread.id × String)
  fresh : Nat
deriving DecidableEq, Repr

/-- The method `Logger_async::add_output`. -/
def add_output (thread_id : thread.id) (_log : Log_type) (path : String) (append_ : Bool)
    (s : State) : State :=
  let made : Output × Files :=
    match _log with
    | Log_type.Console => (Output.Console_Log s.fresh, s.world.files)
    | Log_type.FileLog => File_Log.new s.fresh path append_ s.world.files
    | Log_type.CSVLog => CSV_Log.new s.fresh path append_ s.world.files
  let outputs : List (thread.id × List Output) :=
    match find s.outputs_ thread_id with
    | some thread_outputs => assign s.outputs_ thread_id (thread_outputs ++ [made.1])
    | none => assign s.outputs_ thread_id [made.1]
  { s with outputs_ := outputs, world := { s.world with files := made.2 }, fresh := s.fresh + 1 }

/-- The method `Logger_async::add_log`: the returned flag and the state after the call. -/
def add_log (thread_id : thread.id) (message : String) (s : State) : Bool × State :=
  match find s.outputs_ thread_id with
  | some _ => (true, { s with messages_queue := s.messages_queue ++ [(thread_id, message)] })
  | none =>
    (false,
      { s with world :=
        { s.world with cout := s.world.cout ++ "Thread [" ++ convert_to_str thread_id
            ++ "] Error while trying to log message! Check if output method is registered or not.\n" } })

/-- The method `Logger_async::remove_thread_ouput`. -/
def remove_thread_ouput (thread_id : thread.id) (s : State) : State :=
  { s with messages_queue := s.messages_queue ++ [(thread_id, Thread_REMOVE)] }

/-- The constructor `Logger_async::Logger_async`, run by thread `this_thread`, up to the start
of the daemon thread. -/
def constructor (this_thread : thread.id) (w : World) : State :=
  let s0 : State :=
    { outputs_ := [], messages_queue := [], stop_daemon := false, world := w, popped := [],
      fresh := 0 }
  let s1 := add_output this_thread Log_type.Console "" true s0
  let s2 := add_output this_thread Log_type.FileLog "" true s1
  { s2 with messages_queue := s2.messages_queue ++ [(this_thread, Lg_START)],
            stop_daemon := false }

/-- The destructor `Logger_async::~Logger_async`, run by thread `this_thread`, up to the
`join` (the daemon thread is joinable from the constructor on). -/
def destructor (this_thread : thread.id) (s : State) : State :=
  { s with messages_queue := s.messages_queue ++ [(this_thread, Lg_STOP)] }

/-- The string `log_message` that an iteration of `daemon_thread` builds from the time string
and the popped entry. -/
def log_message (time : String) (message : thread.id × String) : String :=
  "[" ++ time ++ "] - " ++ "[" ++ convert_to_str message.1 ++ "]" ++ "\t- " ++ message.2

/-- The loop `for (std::shared_ptr<Output> output : search->second) output->write_log(..)`. -/
def write_all (message : String) : List Output → World → Option (List Output × World)
  | [], w => some ([], w)
  | output :: rest, w =>
    match output.write_log message w with
    | none => none
    | some r =>
      match write_all message rest r.2 with
      | none => none
      | some r' => some (r.1 :: r'.1, r'.2)

/-- The body of the `while` loop of `daemon_thread`, with `time` the value of `get_time()`.
On an empty queue the daemon waits, which leaves the state as it is; `none` is undefined
behaviour inside a `write_log`. -/
def daemon_iteration (time : String) (s : State) : Option State :=
  match s.messages_queue with
  | [] => some s
  | message :: queue =>
    let stop : Bool := if message.2 = Lg_STOP then true else s.stop_daemon
    match find s.outputs_ message.1 with
    | some outputs =>
      match write_all (log_message time message) outputs s.world with
      | none => none
      | some r =>
        some
          { outputs_ :=
              if message.2 = Thread_REMOVE then erase s.outputs_ message.1
              else assign s.outputs_ message.1 r.1,
            messages_queue := queue,
            stop_daemon := stop,
            world := r.2,
            popped := s.popped ++ [message],
            fresh := s.fresh }
    | none =>
      some { s with messages_queue := queue, stop_daemon := stop, popped := s.popped ++ [message] }

/-- One turn of `while (!stop_daemon)`: nothing once the flag is set, the body otherwise. -/
def daemon_step (time : String) (s : State) : Option State :=
  if s.stop_daemon then some s else daemon_iteration time s

/-- The method `Logger_async::daemon_thread` with no producer running beside it: one turn per
clock reading in `times`. -/
def daemon_thread : List String → State → Option State
  | [], s => some s
  | time :: times, s =>
    match daemon_step time s with
    | none => none
    | some s' => daemon_thread times s'

/-- The transitions of a running logger: the three public methods, called by any thread, and
the turns of the daemon thread. -/
inductive Call where
  | add_output (thread_id : thread.id) (_log : Log_type) (path : String) (append_ : Bool)
  | add_log (thread_id : thread.id) (message : String)
  | remove_thread_ouput (thread_id : thread.id)
  | daemon (time : String)
deriving DecidableEq, Repr

/-- The state after one transition. -/
def Call.apply : Call → State → Option State
  | Call.add_output thread_id _log path append_, s =>
    some (Logger_async.add_output thread_id _log path append_ s)
  | Call.add_log thread_id message, s => some (Logger_async.add_log thread_id message s).2
  | Call.remove_thread_ouput thread_id, s =>
    some (Logger_async.remove_thread_ouput thread_id s)
  | Call.daemon time, s => daemon_step time s

/-- The state after a sequence of transitions, in any interleaving of producers and daemon. -/
def run : List Call → State → Option State
  | [], s => some s
  | c :: cs, s =>
    match c.apply s with
    | none => none
    | some s' => run cs s'

/-! ## Definitions used in the statements -/

/-- The fields that the `getline` loop produces, computed in one pass. -/
def fields (delimiter : Char) : List Char → List (List Char)
  | [] => []
  | c :: cs =>
    if c = delimiter then [] :: fields delimiter cs
    else
      match fields delimiter cs with
      | [] => [[c]]
      | token :: tokens => (c :: token) :: tokens

/-- The identities of the objects in a list of outputs, in order. -/
def objs (outputs : List Output) : List Nat := outputs.map Output.obj

/-- The registered thread identities. -/
def keys (s : State) : List thread.id := s.outputs_.map Prod.fst

/-- Well-formed registry: every registered list is non-empty, its objects are distinct and were
created before `fresh`, and no object is registered for two identities. -/
def wf (s : State) : Prop :=
  ∀ X ∈ keys s, ∀ a ∈ find s.outputs_ X,
    a ≠ [] ∧ (∀ i ∈ objs a, i < s.fresh) ∧ (objs a).Nodup ∧
      ∀ Y ∈ keys s, ∀ b ∈ find s.outputs_ Y, X ≠ Y → ∀ i ∈ objs a, i ∉ objs b

instance (s : State) : Decidable (wf s) := by
  unfold wf
  infer_instance

/-- A logger with no registered output and an empty queue, in an empty world. -/
def idle : State :=
  { outputs_ := [], messages_queue := [], stop_daemon := false,
    world := { files := [], cout := "", trace := [] }, popped := [], fresh := 0 }

/-- The logger right after its construction by thread `1` in an empty world. -/
def started : State := constructor ⟨"1"⟩ { files := [], cout := "", trace := [] }

/-- The object `i` is in the list of some registered identity. -/
def registered (i : Nat) (s : State) : Prop :=
  ∃ Y ∈ keys s, ∃ b ∈ find s.outputs_ Y, i ∈ objs b

instance (i : Nat) (s : State) : Decidable (registered i s) := by
  unfold registered
  infer_instance

/-- The messages that the object `i` received among the calls `added` of a trace, in order. -/
def observed (i : Nat) (added : List (Nat × String)) : List String :=
  (added.filter (fun ev => ev.1 = i)).map Prod.snd

/-- The elements of a list up to and including the first one that satisfies `p`. -/
def upto {α : Type} (p : α → Bool) : List α → List α
  | [] => []
  | a :: l => if p a then [a] else a :: upto p l

/-- The consecutive calls `add_log c.1 c.2` for the `c` of a list: the calls that returned true,
in order, and the state after the last call. -/
def add_logs : List (thread.id × String) → State → List (thread.id × String) × State
  | [], s => ([], s)
  | c :: cs, s =>
    let r := add_log c.1 c.2 s
    let rest := add_logs cs r.2
    (if r.1 then c :: rest.1 else rest.1, rest.2)

/-- The entries that the daemon, running alone with the given clock readings, pops from a queue:
the entries in queue order, each with its clock reading, up to and including the first stop
entry. -/
def dispatched (queue : List (thread.id × String)) (times : List String) :
    List ((thread.id × String) × String) :=
  upto (fun et => et.1.2 = Lg_STOP) (queue.zip times)

/-- The dispatched entries of identity `X`, up to and including its first removal entry. -/
def delivered (X : thread.id) (queue : List (thread.id × String)) (times : List String) :
    List ((thread.id × String) × String) :=
  upto (fun et => et.1.2 = Thread_REMOVE) ((dispatched queue times).filter (fun et => et.1.1 = X))

/-- Whether a transition is a call `add_output X ..`. -/
def Call.registers (X : thread.id) : Call → Bool
  | Call.add_output Y _ _ _ => decide (Y = X)
  | _ => false

/-- The logger started by thread `1`, after the daemon has dispatched the start marker and
thread `1` has called `remove_thread_ouput`. -/
def removing : State :=
  { outputs_ :=
      [(⟨"1"⟩, [Output.Console_Log 0,
                Output.File_Log 1 { filename := "logs/log.txt", app := true, pos := 0 }])],
    messages_queue := [(⟨"1"⟩, "Thread_RM")],
    stop_daemon := false,
    world :=
      { files := [("logs/log.txt", "[T0] - [1]\t- Logger_START\n")],
        cout := "[T0] - [1]\t- Logger_START\n",
        trace := [(0, "[T0] - [1]\t- Logger_START"), (1, "[T0] - [1]\t- Logger_START")] },
    popped := [(⟨"1"⟩, "Logger_START")],
    fresh := 2 }

/-- The `Log_type` that `add_output` builds an output object for. -/
def Output.kind : Output → Log_type
  | Output.Console_Log _ => Log_type.Console
  | Output.File_Log _ _ => Log_type.FileLog
  | Output.CSV_Log _ _ => Log_type.CSVLog

section AssocFacts

variable {κ α : Type} [DecidableEq κ]

theorem find_assign_same (m : List (κ × α)) (k : κ) (v : α) : find (assign m k v) k = some v := by
  induction m with
  | nil => simp [assign, find]
  | cons e m ih =>
    obtain ⟨k', v'⟩ := e
    by_cases h : k' = k
    · simp [assign, find, h]
    · simp [assign, find, h, ih]

theorem find_assign_other (m : List (κ × α)) (k k' : κ) (v : α) (h : k ≠ k') :
    find (assign m k v) k' = find m k' := by
  induction m with
  | nil => simp [assign, find, h]
  | cons e m ih =>
    obtain ⟨k₀, v₀⟩ := e
    by_cases h₀ : k₀ = k
    · subst h₀
      simp [assign, find, h]
    · simp [assign, find, h₀, ih]

theorem find_erase_same (m : List (κ × α)) (k : κ) : find (erase m k) k = none := by
  induction m with
  | nil => simp [erase, find]
  | cons e m ih =>
    obtain ⟨k₀, v₀⟩ := e
    by_cases h₀ : k₀ = k
    · simp [erase, h₀, ih]
    · simp [erase, find, h₀, ih]

theorem find_erase_other (m : List (κ × α)) (k k' : κ) (h : k ≠ k') :
    find (erase m k) k' = find m k' := by
  induction m with
  | nil => simp [erase, find]
  | cons e m ih =>
    obtain ⟨k₀, v₀⟩ := e
    by_cases h₀ : k₀ = k
    · subst h₀
      simp [erase, find, h, ih]
    · simp [erase, find, h₀, ih]

theorem find_erase_some (m : List (κ × α)) (k k' : κ) (v : α)
    (h : find (erase m k) k' = some v) : find m k' = some v := by
  by_cases hk : k = k'
  · subst hk
    simp [find_erase_same] at h
  · rwa [find_erase_other m k k' hk] at h

end AssocFacts

/-! ## Facts about `getline` and `split` -/

theorem getline_length (d : Char) (s : List Char) (r : List Char × List Char)
    (h : getline d s = some r) : r.2.length < s.length := by
  induction s generalizing r with
  | nil => simp [getline] at h
  | cons c cs ih =>
    by_cases hc : c = d
    · simp [getline, hc] at h
      subst h
      simp
    · cases hg : getline d cs with
      | none =>
        simp [getline, hc, hg] at h
        subst h
        simp
      | some r' =>
        simp [getline, hc, hg] at h
        subst h
        have := ih r' hg
        simp
        omega

theorem getline_none (d : Char) (s : List Char) : getline d s = none ↔ s = [] := by
  cases s with
  | nil => simp [getline]
  | cons c cs =>
    by_cases hc : c = d
    · simp [getline, hc]
    · cases hg : getline d cs <;> simp [getline, hc, hg]

/-- The bound `message.length + 1` in `CSV_Log.split` never cuts the loop short. -/
theorem split_loop_fuel (d : Char) (s : List Char) (fuel : Nat) (h : s.length < fuel) :
    split_loop d fuel s = fields d s := by
  induction s generalizing fuel with
  | nil =>
    cases fuel with
    | zero => simp at h
    | succ n => simp [split_loop, getline, fields]
  | cons c cs ih =>
    cases fuel with
    | zero => simp at h
    | succ n =>
      have hn : cs.length < n := by simpa using h
      by_cases hc : c = d
      · simp [split_loop, getline, fields, hc, ih n hn]
      · have hcs := ih (n + 1) (by omega)
        cases hg : getline d cs with
        | none =>
          have : cs = [] := (getline_none d cs).1 hg
          subst this
          cases n with
          | zero => simp [split_loop, getline, fields, hc]
          | succ k => simp [split_loop, getline, fields, hc]
        | some r =>
          simp only [split_loop, hg] at hcs
          simp only [split_loop, getline, hc, hg, fields, if_false, ← hcs]

theorem split_eq_fields (message : String) (d : Char) :
    CSV_Log.split message d = (fields d message.data).map String.mk := by
  unfold CSV_Log.split
  rw [split_loop_fuel d message.data (message.length + 1) (Nat.lt_succ_self _)]

theorem fields_cons_length (d c : Char) (s : List Char) :
    (fields d s).length ≤ (fields d (c :: s)).length := by
  by_cases hc : c = d
  · simp [fields, hc]
  · cases hf : fields d s <;> simp [fields, hc, hf]

theorem fields_append_length (d : Char) (a s : List Char) :
    (fields d s).length ≤ (fields d (a ++ s)).length := by
  induction a with
  | nil => simp
  | cons c a ih => exact le_trans ih (fields_cons_length d c (a ++ s))

theorem fields_delim_length (d : Char) (s : List Char) :
    (fields d (d :: s)).length = (fields d s).length + 1 := by
  simp [fields]

theorem fields_two_delims (d c : Char) (a b r : List Char) :
    3 ≤ (fields d (a ++ d :: (b ++ d :: c :: r))).length := by
  have h1 := fields_append_length d a (d :: (b ++ d :: c :: r))
  have h2 := fields_delim_length d (b ++ d :: c :: r)
  have h3 := fields_append_length d b (d :: c :: r)
  have h4 := fields_delim_length d (c :: r)
  have h5 : 1 ≤ (fields d (c :: r)).length := by
    by_cases hc : c = d
    · simp [fields, hc]
    · cases hf : fields d r <;> simp [fields, hc, hf]
  omega

theorem log_message_data (time : String) (message : thread.id × String) :
    (log_message time message).data
      = ('[' :: time.data ++ [']', ' ']) ++ '-' ::
          ([' ', '['] ++ message.1.text.data ++ [']', '\t'] ++ '-' :: ' ' :: message.2.data) := by
  simp [log_message, convert_to_str, String.data_append]

/-- The line the daemon builds always has at least three fields for `CSV_Log::write_log`. -/
theorem split_log_message (time : String) (message : thread.id × String) :
    3 ≤ (CSV_Log.split (log_message time message) '-').length := by
  rw [split_eq_fields, log_message_data, List.length_map]
  have := fields_two_delims '-' ' ' ('[' :: time.data ++ [']', ' '])
    ([' ', '['] ++ message.1.text.data ++ [']', '\t']) message.2.data
  simpa using this

/-! ## Facts about `write_log` and the registry -/

theorem find_mem_keys {κ α : Type} [DecidableEq κ] (m : List (κ × α)) (k : κ) (v : α)
    (h : find m k = some v) : k ∈ m.map Prod.fst := by
  induction m with
  | nil => simp [find] at h
  | cons e m ih =>
    obtain ⟨k₀, v₀⟩ := e
    by_cases h₀ : k₀ = k
    · simp [h₀]
    · simp [find, h₀] at h
      simp [ih h]

theorem wf_iff (s : State) :
    wf s ↔ ∀ X a, find s.outputs_ X = some a →
      a ≠ [] ∧ (∀ i ∈ objs a, i < s.fresh) ∧ (objs a).Nodup ∧
        ∀ Y b, find s.outputs_ Y = some b → X ≠ Y → ∀ i ∈ objs a, i ∉ objs b := by
  constructor
  · intro h X a ha
    obtain ⟨h1, h2, h3, h4⟩ := h X (find_mem_keys _ _ _ ha) a ha
    exact ⟨h1, h2, h3, fun Y b hb => h4 Y (find_mem_keys _ _ _ hb) b hb⟩
  · intro h X _ a ha
    obtain ⟨h1, h2, h3, h4⟩ := h X a ha
    exact ⟨h1, h2, h3, fun Y _ b hb => h4 Y b hb⟩

theorem write_log_spec (o : Output) (msg : String) (w : World) (r : Output × World)
    (h : o.write_log msg w = some r) :
    r.1.obj = o.obj ∧ r.2.trace = w.trace ++ [(o.obj, msg)] := by
  cases o with
  | Console_Log obj =>
    simp [Output.write_log] at h
    subst h
    simp [Output.obj]
  | File_Log obj f =>
    simp [Output.write_log] at h
    subst h
    simp [Output.obj]
  | CSV_Log obj f =>
    unfold Output.write_log at h
    cases hc : CSV_Log.write_log f msg w.files with
    | none => simp [hc] at h
    | some r' =>
      simp [hc] at h
      subst h
      simp [Output.obj]

theorem CSV_write_log_total (f : ofstream) (msg : String) (files : Files)
    (h3 : 3 ≤ (CSV_Log.split msg '-').length) :
    ∃ r, CSV_Log.write_log f msg files = some r := by
  unfold CSV_Log.write_log
  match hs : CSV_Log.split msg '-' with
  | [] => simp [hs] at h3
  | [_] => simp [hs] at h3
  | [_, _] => simp [hs] at h3
  | d0 :: d1 :: d2 :: _ => exact ⟨_, rfl⟩

theorem write_log_total (o : Output) (msg : String) (w : World)
    (h3 : 3 ≤ (CSV_Log.split msg '-').length) : ∃ r, o.write_log msg w = some r := by
  cases o with
  | Console_Log obj => exact ⟨_, rfl⟩
  | File_Log obj f => exact ⟨_, rfl⟩
  | CSV_Log obj f =>
    obtain ⟨r, hr⟩ := CSV_write_log_total f msg w.files h3
    exact ⟨(Output.CSV_Log obj r.1, { w with files := r.2, trace := w.trace ++ [(obj, msg)] }),
      by simp [Output.write_log, hr]⟩

theorem write_all_spec (msg : String) (outs : List Output) (w : World)
    (r : List Output × World) (h : write_all msg outs w = some r) :
    objs r.1 = objs outs ∧ r.2.trace = w.trace ++ outs.map (fun o => (o.obj, msg)) := by
  induction outs generalizing w r with
  | nil =>
    simp [write_all] at h
    subst h
    simp [objs]
  | cons o outs ih =>
    unfold write_all at h
    cases h1 : o.write_log msg w with
    | none => simp [h1] at h
    | some r1 =>
      cases h2 : write_all msg outs r1.2 with
      | none => simp [h1, h2] at h
      | some r2 =>
        simp [h1, h2] at h
        subst h
        obtain ⟨ho, ht⟩ := write_log_spec o msg w r1 h1
        obtain ⟨hos, hts⟩ := ih r1.2 r2 h2
        constructor
        · simp only [objs, List.map_cons] at hos ⊢
          rw [ho, hos]
        · simp [hts, ht]

theorem write_all_total (msg : String) (outs : List Output) (w : World)
    (h3 : 3 ≤ (CSV_Log.split msg '-').length) : ∃ r, write_all msg outs w = some r := by
  induction outs generalizing w with
  | nil => exact ⟨_, rfl⟩
  | cons o outs ih =>
    obtain ⟨r1, h1⟩ := write_log_total o msg w h3
    obtain ⟨r2, h2⟩ := ih r1.2
    exact ⟨(r1.1 :: r2.1, r2.2), by simp [write_all, h1, h2]⟩

/-- The state after an iteration that finds no outputs for the popped entry. -/
theorem daemon_iteration_absent (time : String) (s : State) (e : thread.id × String)
    (q : List (thread.id × String)) (hq : s.messages_queue = e :: q)
    (hf : find s.outputs_ e.1 = none) :
    daemon_iteration time s =
      some { s with messages_queue := q,
                    stop_daemon := if e.2 = Lg_STOP then true else s.stop_daemon,
                    popped := s.popped ++ [e] } := by
  simp [daemon_iteration, hq, hf]

/-- The state after an iteration that finds outputs for the popped entry. -/
theorem daemon_iteration_present (time : String) (s : State) (e : thread.id × String)
    (q : List (thread.id × String)) (outs : List Output) (hq : s.messages_queue = e :: q)
    (hf : find s.outputs_ e.1 = some outs) :
    ∃ r, write_all (log_message time e) outs s.world = some r ∧
      daemon_iteration time s =
        some { outputs_ :=
                 if e.2 = Thread_REMOVE then erase s.outputs_ e.1 else assign s.outputs_ e.1 r.1,
               messages_queue := q,
               stop_daemon := if e.2 = Lg_STOP then true else s.stop_daemon,
               world := r.2,
               popped := s.popped ++ [e],
               fresh := s.fresh } := by
  obtain ⟨r, hr⟩ := write_all_total (log_message time e) outs s.world (split_log_message time e)
  exact ⟨r, hr, by simp [daemon_iteration, hq, hf, hr]⟩

/-- An iteration of the daemon never runs into undefined behaviour. -/
theorem daemon_iteration_total (time : String) (s : State) :
    ∃ s', daemon_iteration time s = some s' := by
  cases hq : s.messages_queue with
  | nil => exact ⟨s, by simp [daemon_iteration, hq]⟩
  | cons e q =>
    cases hf : find s.outputs_ e.1 with
    | none => exact ⟨_, daemon_iteration_absent time s e q hq hf⟩
    | some outs =>
      obtain ⟨r, _, h⟩ := daemon_iteration_present time s e q outs hq hf
      exact ⟨_, h⟩

theorem daemon_step_total (time : String) (s : State) : ∃ s', daemon_step time s = some s' := by
  unfold daemon_step
  by_cases h : s.stop_daemon
  · exact ⟨s, by simp [h]⟩
  · simpa [h] using daemon_iteration_total time s

theorem daemon_thread_total (times : List String) (s : State) :
    ∃ s', daemon_thread times s = some s' := by
  induction times generalizing s with
  | nil => exact ⟨s, rfl⟩
  | cons t ts ih =>
    obtain ⟨s1, h1⟩ := daemon_step_total t s
    obtain ⟨s2, h2⟩ := ih s1
    exact ⟨s2, by simp [daemon_thread, h1, h2]⟩

theorem Call_apply_total (c : Call) (s : State) : ∃ s', c.apply s = some s' := by
  cases c with
  | add_output X k p a => exact ⟨_, rfl⟩
  | add_log X m => exact ⟨_, rfl⟩
  | remove_thread_ouput X => exact ⟨_, rfl⟩
  | daemon t => exact daemon_step_total t s

theorem run_total (cs : List Call) (s : State) : ∃ s', run cs s = some s' := by
  induction cs generalizing s with
  | nil => exact ⟨s, rfl⟩
  | cons c cs ih =>
    obtain ⟨s1, h1⟩ := Call_apply_total c s
    obtain ⟨s2, h2⟩ := ih s1
    exact ⟨s2, by simp [run, h1, h2]⟩

/-! ## Draining entries of other identities -/

theorem content_assign (files : Files) (path text : String) :
    content (assign files path text) path = text := by
  simp [content, find_assign_same]

/-- An iteration on an entry of another identity leaves the outputs of `X` as they are. -/
theorem daemon_iteration_other (time : String) (s s' : State) (e : thread.id × String)
    (q : List (thread.id × String)) (X : thread.id) (hq : s.messages_queue = e :: q)
    (hX : e.1 ≠ X) (h : daemon_iteration time s = some s') :
    find s'.outputs_ X = find s.outputs_ X := by
  cases hf : find s.outputs_ e.1 with
  | none =>
    rw [daemon_iteration_absent time s e q hq hf] at h
    cases h
    rfl
  | some outs =>
    obtain ⟨r, _, h'⟩ := daemon_iteration_present time s e q outs hq hf
    rw [h'] at h
    cases h
    by_cases hr : e.2 = Thread_REMOVE
    · simp [hr, find_erase_other _ _ _ hX]
    · simp [hr, find_assign_other _ _ _ _ hX]

/-- The queue and the stop flag after an iteration. -/
theorem daemon_iteration_queue (time : String) (s s' : State) (e : thread.id × String)
    (q : List (thread.id × String)) (hq : s.messages_queue = e :: q)
    (h : daemon_iteration time s = some s') :
    s'.messages_queue = q ∧ s'.popped = s.popped ++ [e] ∧ s'.fresh = s.fresh ∧
      s'.stop_daemon = (if e.2 = Lg_STOP then true else s.stop_daemon) := by
  cases hf : find s.outputs_ e.1 with
  | none =>
    rw [daemon_iteration_absent time s e q hq hf] at h
    cases h
    simp
  | some outs =>
    obtain ⟨r, _, h'⟩ := daemon_iteration_present time s e q outs hq hf
    rw [h'] at h
    cases h
    simp

theorem log_message_eq (time : String) (X : thread.id) (p : String) :
    log_message time (X, p) = "[" ++ time ++ "] - [" ++ convert_to_str X ++ "]\t- " ++ p := by
  apply String.ext
  simp [log_message, String.data_append]

theorem add_output_find (X : thread.id) (k : Log_type) (path : String) (a : Bool) (s : State) :
    ∃ o, find (add_output X k path a s).outputs_ X = some ((find s.outputs_ X).getD [] ++ [o]) ∧
      o.obj = s.fresh ∧
      (k = Log_type.FileLog → o = Output.File_Log s.fresh
        { filename := if path = "" then "logs/log.txt" else path, app := a, pos := 0 }) := by
  cases hf : find s.outputs_ X with
  | none =>
    cases k <;> cases a <;>
      simp [add_output, hf, find_assign_same, Output.obj, File_Log.new, CSV_Log.new, ofstream_open]
  | some outs =>
    cases k <;> cases a <;>
      simp [add_output, hf, find_assign_same, Output.obj, File_Log.new, CSV_Log.new, ofstream_open]

/-- C1: `add_log X m` returns true exactly when `X` has an entry in the registry, in particular
right after any `add_output X ..`.  When it returns true the queue is the old queue with `(X, m)`
appended at the back and nothing else changes; when it returns false the queue is unchanged and no
output is written (no `write_log` call, no file touched; only the diagnostic goes to `std::cout`).
The registry is unchanged in both cases. -/
theorem add_log_registered (s : State) (X : thread.id) (m : String) :
    ((add_log X m s).1 = true ↔ find s.outputs_ X ≠ none) ∧
    (∀ k path a, (add_log X m (add_output X k path a s)).1 = true) ∧
    ((add_log X m s).1 = true →
      (add_log X m s).2.messages_queue = s.messages_queue ++ [(X, m)] ∧
      (add_log X m s).2.world = s.world) ∧
    ((add_log X m s).1 = false →
      (add_log X m s).2.messages_queue = s.messages_queue ∧
      (add_log X m s).2.world.trace = s.world.trace ∧
      (add_log X m s).2.world.files = s.world.files) ∧
    (add_log X m s).2.outputs_ = s.outputs_ := by
  refine ⟨?_, ?_, ?_, ?_, ?_⟩
  · cases hf : find s.outputs_ X <;> simp [add_log, hf]
  · intro k path a
    obtain ⟨o, ho, _⟩ := add_output_find X k path a s
    simp [add_log, ho]
  · cases hf : find s.outputs_ X <;> simp [add_log, hf]
  · cases hf : find s.outputs_ X <;> simp [add_log, hf]
  · cases hf : find s.outputs_ X <;> simp [add_log, hf]

/-- C3: for an identity `X` with `N` registered outputs (`N ≥ 1` in a well-formed registry) and
a queue entry `(X, p)`, the iteration of the daemon on that entry makes exactly `N` calls of
`write_log`, one to each output of `X`'s list in registration order, all with the same formatted
string, and none to an output registered for another identity. -/
theorem fan_out (time : String) (X : thread.id) (p : String) (s : State)
    (q : List (thread.id × String)) (outs : List Output) (hwf : wf s)
    (hq : s.messages_queue = (X, p) :: q) (hX : find s.outputs_ X = some outs) :
    1 ≤ outs.length ∧
    ∃ s' added, daemon_iteration time s = some s' ∧
      s'.world.trace = s.world.trace ++ added ∧
      added.length = outs.length ∧
      added.map Prod.fst = objs outs ∧
      (∀ ev ∈ added, ev.2 = "[" ++ time ++ "] - [" ++ convert_to_str X ++ "]\t- " ++ p) ∧
      ∀ Y b, Y ≠ X → find s.outputs_ Y = some b → ∀ o ∈ b, ∀ ev ∈ added, ev.1 ≠ o.obj := by
  obtain ⟨hne, _, _, hdis⟩ := (wf_iff s).1 hwf X outs hX
  refine ⟨List.length_pos.mpr hne, ?_⟩
  obtain ⟨r, hr, h⟩ := daemon_iteration_present time s (X, p) q outs hq hX
  refine ⟨_, outs.map (fun o => (o.obj, log_message time (X, p))), h,
    (write_all_spec _ _ _ _ hr).2, by simp, by simp [objs, Function.comp_def], ?_, ?_⟩
  · intro ev hev
    rw [← log_message_eq]
    simp only [List.mem_map] at hev
    obtain ⟨o, _, rfl⟩ := hev
    rfl
  · intro Y b hY hb o ho ev hev heq
    simp only [List.mem_map] at hev
    obtain ⟨o', ho', rfl⟩ := hev
    refine hdis Y b hb (Ne.symm hY) o'.obj ?_ ?_
    · exact List.mem_map.mpr ⟨o', ho', rfl⟩
    · simp only at heq
      rw [heq]
      exact List.mem_map.mpr ⟨o, ho, rfl⟩

/-- Witness of C3: the first iteration on a just started logger writes the start marker to the
console output `0` and the file output `1` of thread `1`. -/
theorem fan_out_witness :
    wf started ∧ started.messages_queue = [(⟨"1"⟩, Lg_START)] ∧
    ∃ s' added, daemon_iteration "Mon" started = some s' ∧
      s'.world.trace = started.world.trace ++ added ∧
      added.length = 2 ∧ added.map Prod.fst = [0, 1] := by
  obtain ⟨_, s', added, h1, h2, h3, h4, _⟩ := fan_out "Mon" ⟨"1"⟩ Lg_START started []
    [Output.Console_Log 0, Output.File_Log 1 { filename := "logs/log.txt", app := true, pos := 0 }]
    (by decide) (by decide) (by decide)
  exact ⟨by decide, by decide, s', added, h1, h2, by simpa using h3, by simpa [objs] using h4⟩

/-! ## The registry stays well-formed -/

theorem objs_eq_nil (a : List Output) : objs a = [] ↔ a = [] := by
  simp [objs]

/-- Every entry of the new registry is an entry of the old one with the same objects. -/
theorem wf_of_same_objs (s s' : State) (hwf : wf s) (hfresh : s.fresh ≤ s'.fresh)
    (hsim : ∀ Y b', find s'.outputs_ Y = some b' →
      ∃ b, find s.outputs_ Y = some b ∧ objs b' = objs b) : wf s' := by
  rw [wf_iff] at hwf ⊢
  intro X a' ha'
  obtain ⟨a, ha, hoa⟩ := hsim X a' ha'
  obtain ⟨h1, h2, h3, h4⟩ := hwf X a ha
  refine ⟨?_, ?_, ?_, ?_⟩
  · intro h
    apply h1
    rw [← objs_eq_nil, ← hoa, h]
    rfl
  · intro i hi
    rw [hoa] at hi
    exact lt_of_lt_of_le (h2 i hi) hfresh
  · rw [hoa]
    exact h3
  · intro Y b' hb' hXY i hi
    obtain ⟨b, hb, hob⟩ := hsim Y b' hb'
    rw [hoa] at hi
    rw [hob]
    exact h4 Y b hb hXY i hi

theorem wf_daemon_iteration (time : String) (s s' : State) (hwf : wf s)
    (h : daemon_iteration time s = some s') : wf s' := by
  cases hq : s.messages_queue with
  | nil =>
    simp [daemon_iteration, hq] at h
    subst h
    exact hwf
  | cons e q =>
    cases hf : find s.outputs_ e.1 with
    | none =>
      rw [daemon_iteration_absent time s e q hq hf] at h
      cases h
      exact wf_of_same_objs s _ hwf (le_refl _) (fun Y b' hb' => ⟨b', hb', rfl⟩)
    | some outs =>
      obtain ⟨r, hr, h'⟩ := daemon_iteration_present time s e q outs hq hf
      rw [h'] at h
      cases h
      refine wf_of_same_objs s _ hwf (le_refl _) ?_
      intro Y b' hb'
      simp only at hb'
      by_cases hrm : e.2 = Thread_REMOVE
      · simp only [hrm, if_true] at hb'
        exact ⟨b', find_erase_some _ _ _ _ hb', rfl⟩
      · simp only [hrm, if_false] at hb'
        by_cases hY : e.1 = Y
        · subst hY
          rw [find_assign_same] at hb'
          cases hb'
          exact ⟨outs, hf, (write_all_spec _ _ _ _ hr).1⟩
        · rw [find_assign_other _ _ _ _ hY] at hb'
          exact ⟨b', hb', rfl⟩

theorem add_output_fields (X : thread.id) (k : Log_type) (path : String) (a : Bool) (s : State) :
    (add_output X k path a s).messages_queue = s.messages_queue ∧
    (add_output X k path a s).stop_daemon = s.stop_daemon ∧
    (add_output X k path a s).popped = s.popped ∧
    (add_output X k path a s).fresh = s.fresh + 1 ∧
    (add_output X k path a s).world.trace = s.world.trace ∧
    (add_output X k path a s).world.cout = s.world.cout ∧
    ∀ Y, Y ≠ X → find (add_output X k path a s).outputs_ Y = find s.outputs_ Y := by
  refine ⟨?_, ?_, ?_, ?_, ?_, ?_, ?_⟩ <;> cases hf : find s.outputs_ X <;>
    simp [add_output, hf]
  · intro Y hY
    exact find_assign_other _ _ _ _ (Ne.symm hY)
  · intro Y hY
    exact find_assign_other _ _ _ _ (Ne.symm hY)

theorem wf_add_output (X : thread.id) (k : Log_type) (path : String) (a : Bool) (s : State)
    (hwf : wf s) : wf (add_output X k path a s) := by
  obtain ⟨o, ho, hobj, _⟩ := add_output_find X k path a s
  obtain ⟨_, _, _, hfr, _, _, hoth⟩ := add_output_fields X k path a s
  have hold := (wf_iff s).1 hwf
  have hX : ∀ i ∈ objs ((find s.outputs_ X).getD []), i < s.fresh ∧
      ∀ Y b, find s.outputs_ Y = some b → X ≠ Y → i ∉ objs b := by
    intro i hi
    cases hf : find s.outputs_ X with
    | none => simp [hf, objs] at hi
    | some a0 =>
      simp only [hf, Option.getD_some] at hi
      obtain ⟨_, h2, _, h4⟩ := hold X a0 hf
      exact ⟨h2 i hi, fun Y b hb hXY => h4 Y b hb hXY i hi⟩
  have hXnd : (objs ((find s.outputs_ X).getD [])).Nodup := by
    cases hf : find s.outputs_ X with
    | none => simp [objs]
    | some a0 => simpa [hf] using (hold X a0 hf).2.2.1
  have hobjs : objs ((find s.outputs_ X).getD [] ++ [o])
      = objs ((find s.outputs_ X).getD []) ++ [s.fresh] := by
    simp [objs, hobj]
  rw [wf_iff]
  intro Y b hb
  by_cases hY : Y = X
  · subst hY
    rw [ho] at hb
    cases hb
    refine ⟨by simp, ?_, ?_, ?_⟩
    · intro i hi
      rw [hobjs, List.mem_append] at hi
      rw [hfr]
      rcases hi with hi | hi
      · exact Nat.lt_succ_of_lt (hX i hi).1
      · simp at hi
        omega
    · rw [hobjs]
      refine List.Nodup.append hXnd (by simp) ?_
      intro i hi hi'
      simp at hi'
      have := (hX i hi).1
      omega
    · intro Z c hc hYZ i hi
      rw [hoth Z (Ne.symm hYZ)] at hc
      rw [hobjs, List.mem_append] at hi
      rcases hi with hi | hi
      · exact (hX i hi).2 Z c hc hYZ
      · simp at hi
        subst hi
        intro hmem
        have := (hold Z c hc).2.1 _ hmem
        omega
  · rw [hoth Y hY] at hb
    obtain ⟨h1, h2, h3, h4⟩ := hold Y b hb
    refine ⟨h1, fun i hi => ?_, h3, ?_⟩
    · rw [hfr]
      exact Nat.lt_succ_of_lt (h2 i hi)
    · intro Z c hc hYZ i hi
      by_cases hZ : Z = X
      · subst hZ
        rw [ho] at hc
        cases hc
        rw [hobjs, List.mem_append]
        rintro (hmem | hmem)
        · cases hf : find s.outputs_ Z with
          | none => simp [hf, objs] at hmem
          | some a0 =>
            simp only [hf, Option.getD_some] at hmem
            exact h4 Z a0 hf hYZ i hi hmem
        · simp at hmem
          have := h2 i hi
          omega
      · rw [hoth Z hZ] at hc
        exact h4 Z c hc hYZ i hi

theorem add_log_fields (X : thread.id) (m : String) (s : State) :
    (add_log X m s).2.outputs_ = s.outputs_ ∧ (add_log X m s).2.stop_daemon = s.stop_daemon ∧
    (add_log X m s).2.popped = s.popped ∧ (add_log X m s).2.fresh = s.fresh ∧
    (add_log X m s).2.world.trace = s.world.trace ∧
    (add_log X m s).2.world.files = s.world.files ∧
    (add_log X m s).2.messages_queue
      = s.messages_queue ++ (if (add_log X m s).1 then [(X, m)] else []) := by
  cases hf : find s.outputs_ X <;> simp [add_log, hf]

theorem wf_constructor (this_thread : thread.id) (w : World) : wf (constructor this_thread w) := by
  have h0 : wf { outputs_ := [], messages_queue := [], stop_daemon := false, world := w,
                 popped := [], fresh := 0 } := by
    rw [wf_iff]
    intro X a ha
    simp [find] at ha
  have h2 := wf_add_output this_thread Log_type.FileLog "" true _
    (wf_add_output this_thread Log_type.Console "" true _ h0)
  exact wf_of_same_objs _ _ h2 (le_refl _) (fun Y b hb => ⟨b, hb, rfl⟩)

/-- The daemon running alone is a run of daemon turns. -/
theorem daemon_thread_eq_run (times : List String) (s : State) :
    daemon_thread times s = run (times.map Call.daemon) s := by
  induction times generalizing s with
  | nil => rfl
  | cons t ts ih =>
    simp only [daemon_thread, List.map_cons, run, Call.apply]
    cases daemon_step t s with
    | none => rfl
    | some s1 => exact ih s1

/-! ## Writes go to registered objects only -/

theorem registered_iff (i : Nat) (s : State) :
    registered i s ↔ ∃ Y b, find s.outputs_ Y = some b ∧ i ∈ objs b := by
  constructor
  · rintro ⟨Y, _, b, hb, hi⟩
    exact ⟨Y, b, hb, hi⟩
  · rintro ⟨Y, b, hb, hi⟩
    exact ⟨Y, find_mem_keys _ _ _ hb, b, hb, hi⟩

theorem daemon_iteration_trace (time : String) (s s' : State)
    (h : daemon_iteration time s = some s') :
    s'.fresh = s.fresh ∧
    (∃ added, s'.world.trace = s.world.trace ++ added ∧ ∀ ev ∈ added, registered ev.1 s) ∧
    ∀ i, registered i s' → registered i s := by
  cases hq : s.messages_queue with
  | nil =>
    simp [daemon_iteration, hq] at h
    subst h
    exact ⟨rfl, ⟨[], by simp, by simp⟩, fun i hi => hi⟩
  | cons e q =>
    cases hf : find s.outputs_ e.1 with
    | none =>
      rw [daemon_iteration_absent time s e q hq hf] at h
      cases h
      exact ⟨rfl, ⟨[], by simp, by simp⟩, fun i hi => hi⟩
    | some outs =>
      obtain ⟨r, hr, h'⟩ := daemon_iteration_present time s e q outs hq hf
      rw [h'] at h
      cases h
      obtain ⟨hobjs, htrace⟩ := write_all_spec _ _ _ _ hr
      refine ⟨rfl, ⟨_, htrace, ?_⟩, ?_⟩
      · intro ev hev
        simp only [List.mem_map] at hev
        obtain ⟨o, ho, rfl⟩ := hev
        exact (registered_iff _ _).2 ⟨e.1, outs, hf, List.mem_map.mpr ⟨o, ho, rfl⟩⟩
      · intro i hi
        rw [registered_iff] at hi ⊢
        obtain ⟨Y, b, hb, hib⟩ := hi
        simp only at hb
        by_cases hrm : e.2 = Thread_REMOVE
        · simp only [hrm, if_true] at hb
          exact ⟨Y, b, find_erase_some _ _ _ _ hb, hib⟩
        · simp only [hrm, if_false] at hb
          by_cases hY : e.1 = Y
          · subst hY
            rw [find_assign_same] at hb
            cases hb
            exact ⟨e.1, outs, hf, by rwa [hobjs] at hib⟩
          · rw [find_assign_other _ _ _ _ hY] at hb
            exact ⟨Y, b, hb, hib⟩

/-- A transition writes to registered objects only, and registers at most the fresh object. -/
theorem apply_trace (c : Call) (s s' : State) (h : c.apply s = some s') :
    s.fresh ≤ s'.fresh ∧
    (∃ added, s'.world.trace = s.world.trace ++ added ∧ ∀ ev ∈ added, registered ev.1 s) ∧
    ∀ i, registered i s' → registered i s ∨ i = s.fresh := by
  cases c with
  | add_output X k p a =>
    simp only [Call.apply, Option.some.injEq] at h
    subst h
    obtain ⟨o, ho, hobj, _⟩ := add_output_find X k p a s
    obtain ⟨_, _, _, hfr, htr, _, hoth⟩ := add_output_fields X k p a s
    refine ⟨by omega, ⟨[], by simp [htr], by simp⟩, ?_⟩
    intro i hi
    rw [registered_iff] at hi
    obtain ⟨Y, b, hb, hib⟩ := hi
    by_cases hY : Y = X
    · subst hY
      rw [ho] at hb
      cases hb
      simp only [objs, List.map_append, List.mem_append, List.map_cons, List.map_nil,
        List.mem_singleton] at hib
      rcases hib with hib | hib
      · left
        cases hf : find s.outputs_ Y with
        | none => simp [hf] at hib
        | some a0 =>
          simp only [hf, Option.getD_some] at hib
          exact (registered_iff _ _).2 ⟨Y, a0, hf, hib⟩
      · right
        rw [hib, hobj]
    · rw [hoth Y hY] at hb
      exact Or.inl ((registered_iff _ _).2 ⟨Y, b, hb, hib⟩)
  | add_log X m =>
    simp only [Call.apply, Option.some.injEq] at h
    subst h
    obtain ⟨h1, _, _, h4, h5, _⟩ := add_log_fields X m s
    refine ⟨le_of_eq h4.symm, ⟨[], by simp [h5], by simp⟩, ?_⟩
    intro i hi
    rw [registered_iff] at hi ⊢
    rw [h1] at hi
    exact Or.inl hi
  | remove_thread_ouput X =>
    simp only [Call.apply, Option.some.injEq] at h
    subst h
    exact ⟨le_refl _, ⟨[], by simp [remove_thread_ouput], by simp⟩, fun i hi => Or.inl hi⟩
  | daemon t =>
    simp only [Call.apply, daemon_step] at h
    by_cases hs : s.stop_daemon
    · simp [hs] at h
      subst h
      exact ⟨le_refl _, ⟨[], by simp, by simp⟩, fun i hi => Or.inl hi⟩
    · simp [hs] at h
      obtain ⟨h1, h2, h3⟩ := daemon_iteration_trace t s s' h
      exact ⟨le_of_eq h1.symm, h2, fun i hi => Or.inl (h3 i hi)⟩

/-- An object that exists and is registered for nobody is never written again. -/
theorem run_unregistered (i : Nat) (cs : List Call) (s s' : State) (h : run cs s = some s')
    (hi : i < s.fresh) (hn : ¬ registered i s) :
    i < s'.fresh ∧ ¬ registered i s' ∧
      ∃ added, s'.world.trace = s.world.trace ++ added ∧ ∀ ev ∈ added, ev.1 ≠ i := by
  induction cs generalizing s with
  | nil =>
    simp only [run, Option.some.injEq] at h
    subst h
    exact ⟨hi, hn, [], by simp, by simp⟩
  | cons c cs ih =>
    simp only [run] at h
    cases hc : c.apply s with
    | none => simp [hc] at h
    | some s1 =>
      simp only [hc] at h
      obtain ⟨hfr, ⟨added1, ht1, hev1⟩, hreg⟩ := apply_trace c s s1 hc
      have hn1 : ¬ registered i s1 := by
        intro hr
        rcases hreg i hr with h' | h'
        · exact hn h'
        · omega
      obtain ⟨h1, h2, added2, ht2, hev2⟩ := ih s1 h (by omega) hn1
      refine ⟨h1, h2, added1 ++ added2, by rw [ht2, ht1, List.append_assoc], ?_⟩
      intro ev hev
      rw [List.mem_append] at hev
      rcases hev with hev | hev
      · intro heq
        exact hn (heq ▸ hev1 ev hev)
      · exact hev2 ev hev

/-- The entries popped and the entries queued, together, only grow at the back. -/
theorem daemon_step_history (time : String) (s s' : State) (h : daemon_step time s = some s') :
    s'.popped ++ s'.messages_queue = s.popped ++ s.messages_queue := by
  unfold daemon_step at h
  by_cases hs : s.stop_daemon
  · simp [hs] at h
    subst h
    rfl
  · simp [hs] at h
    cases hq : s.messages_queue with
    | nil =>
      simp [daemon_iteration, hq] at h
      subst h
      simp [hq]
    | cons e q =>
      obtain ⟨h1, h2, _⟩ := daemon_iteration_queue time s s' e q hq h
      simp [h1, h2]

theorem daemon_thread_history (times : List String) (s s' : State)
    (h : daemon_thread times s = some s') :
    s'.popped ++ s'.messages_queue = s.popped ++ s.messages_queue := by
  induction times generalizing s with
  | nil =>
    simp only [daemon_thread, Option.some.injEq] at h
    subst h
    rfl
  | cons t ts ih =>
    simp only [daemon_thread] at h
    cases hst : daemon_step t s with
    | none => simp [hst] at h
    | some s1 =>
      simp only [hst] at h
      rw [ih s1 h, daemon_step_history t s s1 hst]

/-! ## What an output observes while the daemon drains the queue -/

theorem observed_append (i : Nat) (a b : List (Nat × String)) :
    observed i (a ++ b) = observed i a ++ observed i b := by
  simp [observed]

theorem observed_none (i : Nat) (added : List (Nat × String)) (h : ∀ ev ∈ added, ev.1 ≠ i) :
    observed i added = [] := by
  simp only [observed, List.map_eq_nil_iff, List.filter_eq_nil_iff]
  intro ev hev
  simpa using h ev hev

theorem observed_one (i : Nat) (line : String) (outs : List Output) (hnd : (objs outs).Nodup)
    (hi : i ∈ objs outs) : observed i (outs.map (fun o => (o.obj, line))) = [line] := by
  induction outs with
  | nil => simp [objs] at hi
  | cons o outs ih =>
    simp only [objs, List.map_cons, List.nodup_cons, List.mem_cons] at hnd hi
    by_cases ho : o.obj = i
    · have hrest : observed i (outs.map (fun o => (o.obj, line))) = [] := by
        apply observed_none
        intro ev hev
        simp only [List.mem_map] at hev
        obtain ⟨o', ho', rfl⟩ := hev
        intro heq
        simp only at heq
        exact hnd.1 (ho ▸ heq ▸ List.mem_map.mpr ⟨o', ho', rfl⟩)
      have : observed i ((o.obj, line) :: outs.map (fun o => (o.obj, line)))
          = line :: observed i (outs.map (fun o => (o.obj, line))) := by
        simp [observed, ho]
      rw [List.map_cons, this, hrest]
    · have hi' : i ∈ objs outs := by
        rcases hi with hi | hi
        · exact absurd hi.symm ho
        · exact hi
      have : observed i ((o.obj, line) :: outs.map (fun o => (o.obj, line)))
          = observed i (outs.map (fun o => (o.obj, line))) := by
        simp [observed, ho]
      rw [List.map_cons, this, ih hnd.2 hi']

theorem dispatched_cons (e : thread.id × String) (q : List (thread.id × String)) (t : String)
    (ts : List String) :
    dispatched (e :: q) (t :: ts)
      = if e.2 = Lg_STOP then [(e, t)] else (e, t) :: dispatched q ts := by
  unfold dispatched
  rw [List.zip_cons_cons]
  simp only [upto, decide_eq_true_eq]

theorem delivered_cons (X : thread.id) (e : thread.id × String) (q : List (thread.id × String))
    (t : String) (ts : List String) :
    delivered X (e :: q) (t :: ts)
      = if e.2 = Lg_STOP then (if e.1 = X then [(e, t)] else [])
        else if e.1 = X then
          (if e.2 = Thread_REMOVE then [(e, t)] else (e, t) :: delivered X q ts)
        else delivered X q ts := by
  unfold delivered
  rw [dispatched_cons]
  by_cases hstop : e.2 = Lg_STOP
  · by_cases hX : e.1 = X
    · have hrm : e.2 ≠ Thread_REMOVE := by
        rw [hstop]
        decide
      simp [hstop, hX, upto, hrm]
    · simp [hstop, hX, upto]
  · by_cases hX : e.1 = X
    · simp only [hstop, hX, if_true, if_false]
      rw [List.filter_cons_of_pos (by simp [hX])]
      by_cases hrm : e.2 = Thread_REMOVE
      · simp only [upto, hrm, decide_True, if_true]
      · simp only [upto, hrm, decide_False, if_false, Bool.false_eq_true]
    · simp only [hstop, hX, if_false]
      rw [List.filter_cons_of_neg (by simp [hX])]

/-- Once the stop flag is set the daemon does nothing more. -/
theorem daemon_thread_stopped (times : List String) (s : State) (h : s.stop_daemon = true) :
    daemon_thread times s = some s := by
  induction times with
  | nil => rfl
  | cons t ts ih => simp [daemon_thread, daemon_step, h, ih]

theorem daemon_thread_cons (t : String) (ts : List String) (s s1 : State)
    (hs : s.stop_daemon = false) (h1 : daemon_iteration t s = some s1) :
    daemon_thread (t :: ts) s = daemon_thread ts s1 := by
  simp [daemon_thread, daemon_step, hs, h1]

theorem daemon_thread_empty (times : List String) (s : State) (h : s.messages_queue = []) :
    daemon_thread times s = some s := by
  induction times with
  | nil => rfl
  | cons t ts ih =>
    by_cases hs : s.stop_daemon
    · exact daemon_thread_stopped _ s hs
    · simp [daemon_thread, daemon_step, hs, daemon_iteration, h, ih]

/-- The entries the daemon pops are the dispatched entries, in queue order. -/
theorem daemon_thread_popped (times : List String) (s : State) (hs : s.stop_daemon = false) :
    ∃ s', daemon_thread times s = some s' ∧
      s'.popped = s.popped ++ (dispatched s.messages_queue times).map Prod.fst ∧
      s'.popped ++ s'.messages_queue = s.popped ++ s.messages_queue := by
  induction times generalizing s with
  | nil => exact ⟨s, rfl, by simp [dispatched, upto], rfl⟩
  | cons t ts ih =>
    cases hq : s.messages_queue with
    | nil =>
      exact ⟨s, daemon_thread_empty _ s hq, by simp [dispatched, upto], by simp [hq]⟩
    | cons e q =>
      obtain ⟨s1, h1⟩ := daemon_iteration_total t s
      obtain ⟨hq1, hp1, _, hst1⟩ := daemon_iteration_queue t s s1 e q hq h1
      rw [daemon_thread_cons t ts s s1 hs h1]
      by_cases hstop : e.2 = Lg_STOP
      · refine ⟨s1, daemon_thread_stopped ts s1 (by simp [hst1, hstop]), ?_, ?_⟩
        · simp [dispatched_cons, hstop, hp1]
        · simp [hp1, hq1]
      · obtain ⟨s2, h2, hp2, hh2⟩ := ih s1 (by simp [hst1, hstop, hs])
        refine ⟨s2, h2, ?_, ?_⟩
        · rw [hp2, hp1, hq1]
          simp [dispatched_cons, hstop]
        · rw [hh2, hp1, hq1]
          simp

/-- What an output of `X` observes while the daemon drains the queue. -/
theorem daemon_thread_observed (X : thread.id) (i : Nat) (times : List String) (s : State)
    (hwf : wf s) (hs : s.stop_daemon = false)
    (hX : ∃ outs, find s.outputs_ X = some outs ∧ i ∈ objs outs) :
    ∃ s' added, daemon_thread times s = some s' ∧ s'.world.trace = s.world.trace ++ added ∧
      observed i added
        = (delivered X s.messages_queue times).map (fun et => log_message et.2 et.1) := by
  induction times generalizing s with
  | nil => exact ⟨s, [], rfl, by simp, by simp [observed, delivered, dispatched, upto]⟩
  | cons t ts ih =>
    cases hq : s.messages_queue with
    | nil =>
      exact ⟨s, [], daemon_thread_empty _ s hq, by simp,
        by simp [observed, delivered, dispatched, upto]⟩
    | cons e q =>
      obtain ⟨outs, hf, hi⟩ := hX
      obtain ⟨_, hbound, hnd, hdis⟩ := (wf_iff s).1 hwf X outs hf
      obtain ⟨s1, h1⟩ := daemon_iteration_total t s
      have hwf1 := wf_daemon_iteration t s s1 hwf h1
      obtain ⟨hq1, _, hfr1, hst1⟩ := daemon_iteration_queue t s s1 e q hq h1
      rw [daemon_thread_cons t ts s s1 hs h1]
      -- the writes of this iteration, as seen by `i`
      have hstep : ∃ added1, s1.world.trace = s.world.trace ++ added1 ∧
          observed i added1 = (if e.1 = X then [log_message t e] else []) ∧
          (e.1 = X → e.2 ≠ Thread_REMOVE → ∃ outs', find s1.outputs_ X = some outs' ∧
            i ∈ objs outs') ∧
          (e.1 = X → e.2 = Thread_REMOVE → ¬ registered i s1) := by
        cases hfe : find s.outputs_ e.1 with
        | none =>
          have hne : e.1 ≠ X := by
            intro h
            rw [h, hf] at hfe
            cases hfe
          rw [daemon_iteration_absent t s e q hq hfe] at h1
          cases h1
          exact ⟨[], by simp, by simp [observed, hne], fun h => absurd h hne,
            fun h => absurd h hne⟩
        | some outs0 =>
          obtain ⟨r, hr, h'⟩ := daemon_iteration_present t s e q outs0 hq hfe
          rw [h'] at h1
          cases h1
          obtain ⟨hobjs, htrace⟩ := write_all_spec _ _ _ _ hr
          refine ⟨_, htrace, ?_, ?_, ?_⟩
          · by_cases hX' : e.1 = X
            · rw [hX', hf] at hfe
              cases hfe
              simp only [hX', if_true]
              exact observed_one i _ outs hnd hi
            · simp only [hX', if_false]
              apply observed_none
              intro ev hev
              simp only [List.mem_map] at hev
              obtain ⟨o, ho, rfl⟩ := hev
              intro heq
              simp only at heq
              exact hdis e.1 outs0 hfe (Ne.symm hX') i hi
                (heq ▸ List.mem_map.mpr ⟨o, ho, rfl⟩)
          · intro hX' hrm
            rw [hX', hf] at hfe
            cases hfe
            refine ⟨r.1, ?_, by rw [hobjs]; exact hi⟩
            simp only [hrm, if_false]
            rw [← hX']
            exact find_assign_same _ _ _
          · intro hX' hrm hreg
            rw [registered_iff] at hreg
            obtain ⟨Y, b, hb, hib⟩ := hreg
            simp only [hrm, if_true] at hb
            by_cases hY : e.1 = Y
            · rw [← hY, find_erase_same] at hb
              cases hb
            · rw [find_erase_other _ _ _ hY] at hb
              exact hdis Y b hb (hX' ▸ hY) i hi hib
      obtain ⟨added1, ht1, hobs1, hkeep, hgone⟩ := hstep
      by_cases hstop : e.2 = Lg_STOP
      · refine ⟨s1, added1, daemon_thread_stopped ts s1 (by simp [hst1, hstop]), ht1, ?_⟩
        rw [hobs1]
        by_cases hX' : e.1 = X
        · simp [delivered_cons, hstop, hX']
        · simp [delivered_cons, hstop, hX']
      · have hs1 : s1.stop_daemon = false := by simp [hst1, hstop, hs]
        by_cases hX' : e.1 = X
        · by_cases hrm : e.2 = Thread_REMOVE
          · obtain ⟨s2, h2⟩ := daemon_thread_total ts s1
            obtain ⟨_, _, added2, ht2, hev2⟩ := run_unregistered i (ts.map Call.daemon) s1 s2
              (by rw [← daemon_thread_eq_run]; exact h2)
              (by rw [hfr1]; exact hbound i hi) (hgone hX' hrm)
            refine ⟨s2, added1 ++ added2, h2, by rw [ht2, ht1, List.append_assoc], ?_⟩
            rw [observed_append, hobs1, observed_none i added2 hev2, delivered_cons]
            simp only [hstop, hX', hrm, if_true, if_false]
            simp
          · obtain ⟨s2, added2, h2, ht2, hobs2⟩ := ih s1 hwf1 hs1 (hkeep hX' hrm)
            refine ⟨s2, added1 ++ added2, h2, by rw [ht2, ht1, List.append_assoc], ?_⟩
            rw [observed_append, hobs1, hobs2, hq1, delivered_cons]
            simp only [hstop, hX', hrm, if_true, if_false]
            simp
        · have hf1 : find s1.outputs_ X = find s.outputs_ X :=
            daemon_iteration_other t s s1 e q X hq hX' h1
          obtain ⟨s2, added2, h2, ht2, hobs2⟩ := ih s1 hwf1 hs1 ⟨outs, by rw [hf1, hf], hi⟩
          refine ⟨s2, added1 ++ added2, h2, by rw [ht2, ht1, List.append_assoc], ?_⟩
          rw [observed_append, hobs1, hobs2, hq1, delivered_cons]
          simp only [hstop, hX', if_false]
          simp

theorem add_logs_spec (calls : List (thread.id × String)) (s : State) :
    (add_logs calls s).2.messages_queue = s.messages_queue ++ (add_logs calls s).1 ∧
    (add_logs calls s).1 = calls.filter (fun c => (find s.outputs_ c.1).isSome) ∧
    (add_logs calls s).2.outputs_ = s.outputs_ ∧
    (add_logs calls s).2.stop_daemon = s.stop_daemon ∧
    (add_logs calls s).2.popped = s.popped ∧
    (add_logs calls s).2.fresh = s.fresh ∧
    (add_logs calls s).2.world.trace = s.world.trace ∧
    (add_logs calls s).2.world.files = s.world.files := by
  induction calls generalizing s with
  | nil => simp [add_logs]
  | cons c cs ih =>
    obtain ⟨h1, h2, h3, h4, h5, h6, h7, h8⟩ := ih (add_log c.1 c.2 s).2
    obtain ⟨g1, g2, g3, g4, g5, g6, g7⟩ := add_log_fields c.1 c.2 s
    have hacc : (add_log c.1 c.2 s).1 = (find s.outputs_ c.1).isSome := by
      cases hf : find s.outputs_ c.1 <;> simp [add_log, hf]
    simp only [add_logs]
    refine ⟨?_, ?_, by rw [h3, g1], by rw [h4, g2], by rw [h5, g3], by rw [h6, g4],
      by rw [h7, g5], by rw [h8, g6]⟩
    · rw [h1, g7]
      cases hb : (add_log c.1 c.2 s).1 <;> simp
    · rw [h2, g1, hacc]
      cases hb : (find s.outputs_ c.1).isSome <;> simp [List.filter, hb]

theorem wf_add_logs (calls : List (thread.id × String)) (s : State) (hwf : wf s) :
    wf (add_logs calls s).2 := by
  obtain ⟨_, _, h3, _, _, h6, _⟩ := add_logs_spec calls s
  exact wf_of_same_objs s _ hwf (le_of_eq h6.symm) (fun Y b hb => ⟨b, by rwa [h3] at hb, rfl⟩)

theorem dispatched_is_initial (q : List (thread.id × String)) (times : List String) :
    (dispatched q times).map Prod.fst <+: q := by
  induction q generalizing times with
  | nil => simp [dispatched, upto]
  | cons e q ih =>
    cases times with
    | nil => simp [dispatched, upto]
    | cons t ts =>
      rw [dispatched_cons]
      by_cases hstop : e.2 = Lg_STOP
      · simp only [hstop, if_true, List.map_cons, List.map_nil]
        exact ⟨q, rfl⟩
      · simp only [hstop, if_false, List.map_cons]
        obtain ⟨r, hr⟩ := ih ts
        exact ⟨r, by simp [hr]⟩

theorem dispatched_all (q : List (thread.id × String)) (times : List String)
    (hlen : q.length ≤ times.length) (hstop : ∀ e ∈ q, e.2 ≠ Lg_STOP) :
    (dispatched q times).map Prod.fst = q := by
  induction q generalizing times with
  | nil => simp [dispatched, upto]
  | cons e q ih =>
    cases times with
    | nil => simp at hlen
    | cons t ts =>
      rw [dispatched_cons]
      simp only [hstop e (by simp), if_false, List.map_cons]
      rw [ih ts (by simpa using hlen) (fun e' he' => hstop e' (by simp [he']))]

theorem delivered_sublist (X : thread.id) (q : List (thread.id × String)) (times : List String) :
    ((delivered X q times).map (fun et => et.1.2)).Sublist
      ((q.filter (fun e => e.1 = X)).map Prod.snd) := by
  induction q generalizing times with
  | nil => simp [delivered, dispatched, upto]
  | cons e q ih =>
    cases times with
    | nil => simp [delivered, dispatched, upto]
    | cons t ts =>
      rw [delivered_cons]
      by_cases hX : e.1 = X
      · rw [List.filter_cons_of_pos (by simp [hX])]
        by_cases hstop : e.2 = Lg_STOP
        · simp only [hstop, hX, if_true, List.map_cons, List.map_nil]
          exact List.Sublist.cons₂ _ (List.nil_sublist _)
        · simp only [hstop, hX, if_true, if_false]
          by_cases hrm : e.2 = Thread_REMOVE
          · rw [if_pos hrm]
            exact List.Sublist.cons₂ _ (List.nil_sublist _)
          · rw [if_neg hrm]
            exact List.Sublist.cons₂ _ (ih ts)
      · rw [List.filter_cons_of_neg (by simp [hX])]
        by_cases hstop : e.2 = Lg_STOP
        · simp only [hstop, hX, if_true, if_false, List.map_nil]
          exact List.nil_sublist _
        · simp only [hstop, hX, if_false]
          exact ih ts

theorem delivered_all (X : thread.id) (q : List (thread.id × String)) (times : List String)
    (hlen : q.length ≤ times.length)
    (hres : ∀ e ∈ q, e.2 ≠ Lg_STOP ∧ (e.1 = X → e.2 ≠ Thread_REMOVE)) :
    (delivered X q times).map Prod.fst = q.filter (fun e => e.1 = X) := by
  induction q generalizing times with
  | nil => simp [delivered, dispatched, upto]
  | cons e q ih =>
    cases times with
    | nil => simp at hlen
    | cons t ts =>
      have he := hres e (by simp)
      have ih' := ih ts (by simpa using hlen) (fun e' he' => hres e' (by simp [he']))
      rw [delivered_cons]
      by_cases hX : e.1 = X
      · rw [List.filter_cons_of_pos (by simp [hX])]
        simp only [he.1, hX, he.2 hX, if_true, if_false, List.map_cons, ih']
      · rw [List.filter_cons_of_neg (by simp [hX])]
        simp only [he.1, hX, if_false, ih']

theorem daemon_thread_trace (times : List String) (s s' : State)
    (h : daemon_thread times s = some s') :
    ∃ added, s'.world.trace = s.world.trace ++ added := by
  induction times generalizing s with
  | nil =>
    simp only [daemon_thread, Option.some.injEq] at h
    subst h
    exact ⟨[], by simp⟩
  | cons t ts ih =>
    simp only [daemon_thread] at h
    cases hst : daemon_step t s with
    | none => simp [hst] at h
    | some s1 =>
      simp only [hst] at h
      obtain ⟨_, ⟨a1, h1, _⟩, _⟩ := apply_trace (Call.daemon t) s s1 hst
      obtain ⟨a2, h2⟩ := ih s1 h
      exact ⟨a1 ++ a2, by rw [h2, h1, List.append_assoc]⟩

/-- C4: after any sequence of `add_log` calls the queue holds the accepted calls in call order
behind what was queued before; the daemon, draining alone, pops the entries in exactly that
order (all of them when no stop entry is among them and the clock readings suffice); and what
an output registered for `X` observes is the formatted payloads of `X`'s entries in their
relative queue order (all of them when no entry is a stop or removal entry). -/
theorem fifo_order (s : State) (calls : List (thread.id × String)) (times : List String)
    (hwf : wf s) (hs : s.stop_daemon = false) :
    (add_logs calls s).2.messages_queue = s.messages_queue ++ (add_logs calls s).1 ∧
    (add_logs calls s).1 = calls.filter (fun c => (find s.outputs_ c.1).isSome) ∧
    ∃ s' added, daemon_thread times (add_logs calls s).2 = some s' ∧
      s'.world.trace = s.world.trace ++ added ∧
      s'.popped
        = s.popped ++ (dispatched (s.messages_queue ++ (add_logs calls s).1) times).map Prod.fst ∧
      (dispatched (s.messages_queue ++ (add_logs calls s).1) times).map Prod.fst
        <+: s.messages_queue ++ (add_logs calls s).1 ∧
      ((s.messages_queue ++ (add_logs calls s).1).length ≤ times.length →
        (∀ e ∈ s.messages_queue ++ (add_logs calls s).1, e.2 ≠ Lg_STOP) →
        s'.messages_queue = [] ∧
        s'.popped = s.popped ++ (s.messages_queue ++ (add_logs calls s).1)) ∧
      ∀ X outs o, find s.outputs_ X = some outs → o ∈ outs →
        observed o.obj added
          = (delivered X (s.messages_queue ++ (add_logs calls s).1) times).map
              (fun et => log_message et.2 et.1) ∧
        ((delivered X (s.messages_queue ++ (add_logs calls s).1) times).map
            (fun et => et.1.2)).Sublist
          (((s.messages_queue ++ (add_logs calls s).1).filter (fun e => e.1 = X)).map Prod.snd) ∧
        ((s.messages_queue ++ (add_logs calls s).1).length ≤ times.length →
          (∀ e ∈ s.messages_queue ++ (add_logs calls s).1,
            e.2 ≠ Lg_STOP ∧ e.2 ≠ Thread_REMOVE) →
          (delivered X (s.messages_queue ++ (add_logs calls s).1) times).map Prod.fst
            = (s.messages_queue ++ (add_logs calls s).1).filter (fun e => e.1 = X)) := by
  obtain ⟨hq, hacc, hreg, hstop, hpop, hfresh, htrace, _⟩ := add_logs_spec calls s
  refine ⟨hq, hacc, ?_⟩
  have hwf1 := wf_add_logs calls s hwf
  have hs1 : (add_logs calls s).2.stop_daemon = false := by rw [hstop, hs]
  obtain ⟨s', hrun, hpopped, hhist⟩ := daemon_thread_popped times (add_logs calls s).2 hs1
  obtain ⟨added, hadded⟩ := daemon_thread_trace times _ s' hrun
  rw [hq, hpop] at hpopped hhist
  rw [htrace] at hadded
  refine ⟨s', added, hrun, hadded, hpopped, dispatched_is_initial _ _, ?_, ?_⟩
  · intro hlen hnostop
    have hall := dispatched_all _ times hlen hnostop
    rw [hall] at hpopped
    refine ⟨?_, hpopped⟩
    rw [hpopped] at hhist
    have := List.append_cancel_left (hhist.trans (List.append_nil _).symm)
    exact this
  · intro X outs o hX ho
    have hX1 : ∃ outs, find (add_logs calls s).2.outputs_ X = some outs ∧ o.obj ∈ objs outs :=
      ⟨outs, by rw [hreg, hX], List.mem_map.mpr ⟨o, ho, rfl⟩⟩
    obtain ⟨s'', added', hrun', hadded', hobs⟩ :=
      daemon_thread_observed X o.obj times (add_logs calls s).2 hwf1 hs1 hX1
    rw [hrun] at hrun'
    cases hrun'
    rw [htrace, hadded] at hadded'
    have hsame : added = added' := List.append_cancel_left hadded'
    rw [hq] at hobs
    refine ⟨by rw [hsame, hobs], delivered_sublist X _ times, ?_⟩
    intro hlen hres
    exact delivered_all X _ times hlen (fun e he => ⟨(hres e he).1, fun _ => (hres e he).2⟩)

/-- Witness of C4: on a just started logger, threads `1` and `2` call `add_log` in turn (thread
`2` is not registered); the daemon pops the start marker and the two accepted messages in call
order, and the console output `0` of thread `1` observes them in that order. -/
theorem fifo_order_witness :
    wf started ∧ started.stop_daemon = false ∧
    ∃ s' added, daemon_thread ["T0", "T1", "T2"]
        (add_logs [(⟨"1"⟩, "a"), (⟨"2"⟩, "b"), (⟨"1"⟩, "c")] started).2 = some s' ∧
      s'.world.trace = started.world.trace ++ added ∧
      s'.popped = [(⟨"1"⟩, "Logger_START"), (⟨"1"⟩, "a"), (⟨"1"⟩, "c")] ∧
      observed 0 added
        = ["[T0] - [1]\t- Logger_START", "[T1] - [1]\t- a", "[T2] - [1]\t- c"] := by
  obtain ⟨_, _, s', added, h1, h2, h3, _, _, h6⟩ :=
    fifo_order started [(⟨"1"⟩, "a"), (⟨"2"⟩, "b"), (⟨"1"⟩, "c")] ["T0", "T1", "T2"]
      (by decide) (by decide)
  refine ⟨by decide, by decide, s', added, h1, h2, h3.trans (by decide), ?_⟩
  exact (h6 ⟨"1"⟩
    [Output.Console_Log 0, Output.File_Log 1 { filename := "logs/log.txt", app := true, pos := 0 }]
    (Output.Console_Log 0) (by decide) (by decide)).1.trans (by decide)

/-! ## Draining entries that neither stop the daemon nor remove `X` -/

/-- Under any transition the popped entries followed by the queued ones only grow at the back. -/
theorem apply_history (c : Call) (s s' : State) (h : c.apply s = some s') :
    ∃ pushed, s'.popped ++ s'.messages_queue = s.popped ++ s.messages_queue ++ pushed ∧
      s.popped.length ≤ s'.popped.length := by
  cases c with
  | add_output X k p a =>
    simp only [Call.apply, Option.some.injEq] at h
    subst h
    obtain ⟨h1, _, h3, _⟩ := add_output_fields X k p a s
    exact ⟨[], by rw [h1, h3]; simp, by rw [h3]⟩
  | add_log X m =>
    simp only [Call.apply, Option.some.injEq] at h
    subst h
    obtain ⟨_, _, h3, _, _, _, h7⟩ := add_log_fields X m s
    exact ⟨_, by rw [h3, h7, List.append_assoc], by rw [h3]⟩
  | remove_thread_ouput X =>
    simp only [Call.apply, Option.some.injEq] at h
    subst h
    exact ⟨[(X, Thread_REMOVE)], by simp [remove_thread_ouput], le_refl _⟩
  | daemon t =>
    refine ⟨[], by simpa using daemon_step_history t s s' h, ?_⟩
    simp only [Call.apply, daemon_step] at h
    by_cases hs : s.stop_daemon
    · simp [hs] at h
      subst h
      exact le_refl _
    · simp [hs] at h
      cases hq : s.messages_queue with
      | nil =>
        simp [daemon_iteration, hq] at h
        subst h
        exact le_refl _
      | cons e q =>
        rw [(daemon_iteration_queue t s s' e q hq h).2.1]
        simp

/-- A turn of the daemon registers nobody. -/
theorem daemon_step_find_none (t : String) (s s' : State) (X : thread.id)
    (h : daemon_step t s = some s') (hX : find s.outputs_ X = none) :
    find s'.outputs_ X = none := by
  simp only [daemon_step] at h
  by_cases hs : s.stop_daemon
  · simp [hs] at h
    subst h
    exact hX
  · simp [hs] at h
    cases hq : s.messages_queue with
    | nil =>
      simp [daemon_iteration, hq] at h
      subst h
      exact hX
    | cons e q =>
      by_cases he : e.1 = X
      · rw [daemon_iteration_absent t s e q hq (by rw [he, hX])] at h
        cases h
        exact hX
      · rw [daemon_iteration_other t s s' e q X hq he h, hX]

/-- The turn that pops a removal entry for `X` leaves `X` unregistered. -/
theorem daemon_iteration_remove (t : String) (s s' : State) (X : thread.id)
    (q : List (thread.id × String)) (hq : s.messages_queue = (X, Thread_REMOVE) :: q)
    (h : daemon_iteration t s = some s') : find s'.outputs_ X = none := by
  cases hf : find s.outputs_ X with
  | none =>
    rw [daemon_iteration_absent t s (X, Thread_REMOVE) q hq hf] at h
    cases h
    exact hf
  | some outs =>
    obtain ⟨r, _, h'⟩ := daemon_iteration_present t s (X, Thread_REMOVE) q outs hq hf
    rw [h'] at h
    cases h
    simp [find_erase_same]

/-- While no `add_output X ..` is called, a removal entry for `X` that sits at position `idx` of
the history stays there, and `X` is unregistered from the turn that pops it on. -/
theorem run_removed (X : thread.id) (idx : Nat) (cs : List Call) (s s' : State)
    (hno : ∀ c ∈ cs, c.registers X = false)
    (hidx : (s.popped ++ s.messages_queue)[idx]? = some (X, Thread_REMOVE))
    (hinv : idx < s.popped.length → find s.outputs_ X = none)
    (hrun : run cs s = some s') :
    idx < s'.popped.length → find s'.outputs_ X = none := by
  induction cs generalizing s with
  | nil =>
    simp only [run, Option.some.injEq] at hrun
    subst hrun
    exact hinv
  | cons c cs ih =>
    simp only [run] at hrun
    cases hc : c.apply s with
    | none => simp [hc] at hrun
    | some s1 =>
      simp only [hc] at hrun
      obtain ⟨pushed, hhist, hmono⟩ := apply_history c s s1 hc
      have hlt : idx < (s.popped ++ s.messages_queue).length := by
        by_contra hge
        rw [List.getElem?_eq_none (by omega)] at hidx
        cases hidx
      have hidx1 : (s1.popped ++ s1.messages_queue)[idx]? = some (X, Thread_REMOVE) := by
        rw [hhist, List.getElem?_append_left hlt]
        exact hidx
      refine ih s1 (fun c' hmem => hno c' (List.mem_cons_of_mem _ hmem)) hidx1 ?_ hrun
      intro hlt1
      cases c with
      | add_output Y k p a =>
        simp only [Call.apply, Option.some.injEq] at hc
        subst hc
        obtain ⟨_, _, h3, _, _, _, hoth⟩ := add_output_fields Y k p a s
        have hY : X ≠ Y := by
          intro hXY
          subst hXY
          simpa [Call.registers] using hno _ (List.mem_cons_self _ _)
        rw [hoth X hY]
        exact hinv (by rwa [h3] at hlt1)
      | add_log Y m =>
        simp only [Call.apply, Option.some.injEq] at hc
        subst hc
        obtain ⟨h1, _, h3, _⟩ := add_log_fields Y m s
        rw [h1]
        exact hinv (by rwa [h3] at hlt1)
      | remove_thread_ouput Y =>
        simp only [Call.apply, Option.some.injEq] at hc
        subst hc
        exact hinv hlt1
      | daemon t =>
        simp only [Call.apply] at hc
        by_cases hprev : idx < s.popped.length
        · exact daemon_step_find_none t s s1 X hc (hinv hprev)
        · -- this turn pops the entry at position `idx`
          simp only [daemon_step] at hc
          by_cases hs : s.stop_daemon
          · simp [hs] at hc
            subst hc
            exact absurd hlt1 hprev
          · simp [hs] at hc
            cases hq : s.messages_queue with
            | nil =>
              simp [daemon_iteration, hq] at hc
              subst hc
              exact absurd hlt1 hprev
            | cons e q =>
              have hp1 := (daemon_iteration_queue t s s1 e q hq hc).2.1
              have hlen : s.popped.length = idx := by
                rw [hp1] at hlt1
                simp at hlt1
                omega
              have he : e = (X, Thread_REMOVE) := by
                rw [hq, List.getElem?_append_right (by omega), hlen] at hidx
                simpa using hidx
              subst he
              exact daemon_iteration_remove t s s1 X q hq hc

/-- C6: after `remove_thread_ouput X`, under any interleaving of calls and daemon turns that
contains no `add_output X ..`, once the daemon has popped that removal entry every `add_log X m`
returns false and leaves the queue as it is. -/
theorem add_log_after_remove (X : thread.id) (s : State) (cs : List Call)
    (hno : ∀ c ∈ cs, c.registers X = false) :
    ∃ s', run cs (remove_thread_ouput X s) = some s' ∧
      (s.popped.length + s.messages_queue.length < s'.popped.length →
        find s'.outputs_ X = none ∧
        ∀ m, (add_log X m s').1 = false ∧
          (add_log X m s').2.messages_queue = s'.messages_queue) := by
  obtain ⟨s', hrun⟩ := run_total cs (remove_thread_ouput X s)
  refine ⟨s', hrun, fun hlt => ?_⟩
  have hnone : find s'.outputs_ X = none := by
    refine run_removed X (s.popped.length + s.messages_queue.length) cs
      (remove_thread_ouput X s) s' hno ?_ ?_ hrun hlt
    · simp only [remove_thread_ouput]
      rw [← List.append_assoc, List.getElem?_append_right (by simp)]
      simp
    · intro h
      simp only [remove_thread_ouput] at h
      omega
  exact ⟨hnone, fun m => by simp [add_log, hnone]⟩

/-- Witness of C6: thread `1` asks for removal on a just started logger; after two turns of the
daemon, with a call of thread `2` in between, `add_log` of thread `1` is refused. -/
theorem add_log_after_remove_witness :
    ∃ s', run [Call.daemon "T0", Call.add_output ⟨"2"⟩ Log_type.Console "" true,
               Call.add_log ⟨"2"⟩ "x", Call.daemon "T1"]
            (remove_thread_ouput ⟨"1"⟩ started) = some s' ∧
      started.popped.length + started.messages_queue.length < s'.popped.length ∧
      (add_log ⟨"1"⟩ "late" s').1 = false ∧
      (add_log ⟨"1"⟩ "late" s').2.messages_queue = s'.messages_queue := by
  obtain ⟨s', h1, h2⟩ := add_log_after_remove ⟨"1"⟩ started
    [Call.daemon "T0", Call.add_output ⟨"2"⟩ Log_type.Console "" true,
     Call.add_log ⟨"2"⟩ "x", Call.daemon "T1"] (by decide)
  have hs' : s'.popped.length = 2 := by
    have : (run [Call.daemon "T0", Call.add_output ⟨"2"⟩ Log_type.Console "" true,
        Call.add_log ⟨"2"⟩ "x", Call.daemon "T1"]
        (remove_thread_ouput ⟨"1"⟩ started)).map (fun u => u.popped.length) = some 2 := by
      decide
    rw [h1] at this
    simpa using this
  have hlt : started.popped.length + started.messages_queue.length < s'.popped.length := by
    rw [hs']
    decide
  exact ⟨s', h1, hlt, (h2 hlt).2 "late"⟩

theorem run_history (cs : List Call) (s s' : State) (h : run cs s = some s') :
    ∃ pushed, s'.popped ++ s'.messages_queue = s.popped ++ s.messages_queue ++ pushed := by
  induction cs generalizing s with
  | nil =>
    simp only [run, Option.some.injEq] at h
    subst h
    exact ⟨[], by simp⟩
  | cons c cs ih =>
    simp only [run] at h
    cases hc : c.apply s with
    | none => simp [hc] at h
    | some s1 =>
      simp only [hc] at h
      obtain ⟨p1, h1, _⟩ := apply_history c s s1 hc
      obtain ⟨p2, h2⟩ := ih s1 h
      exact ⟨p1 ++ p2, by rw [h2, h1, List.append_assoc]⟩

theorem run_trace (cs : List Call) (s s' : State) (h : run cs s = some s') :
    ∃ added, s'.world.trace = s.world.trace ++ added := by
  induction cs generalizing s with
  | nil =>
    simp only [run, Option.some.injEq] at h
    subst h
    exact ⟨[], by simp⟩
  | cons c cs ih =>
    simp only [run] at h
    cases hc : c.apply s with
    | none => simp [hc] at h
    | some s1 =>
      simp only [hc] at h
      obtain ⟨_, ⟨a1, h1, _⟩, _⟩ := apply_trace c s s1 hc
      obtain ⟨a2, h2⟩ := ih s1 h
      exact ⟨a1 ++ a2, by rw [h2, h1, List.append_assoc]⟩

/-- C9: once the daemon has processed a removal entry for a registered identity `X`, `X` has no
registry entry, and whatever calls and daemon turns follow (further `add_output X ..` included,
which register new objects), no `write_log` call goes to an object that was in `X`'s list at
that moment. -/
theorem no_write_after_removal (X : thread.id) (s : State) (q : List (thread.id × String))
    (outs : List Output) (t : String) (cs : List Call) (hwf : wf s)
    (hs : s.stop_daemon = false) (hq : s.messages_queue = (X, Thread_REMOVE) :: q)
    (hX : find s.outputs_ X = some outs) :
    ∃ s1 s2 added, daemon_step t s = some s1 ∧ find s1.outputs_ X = none ∧
      (∀ o ∈ outs, ¬ registered o.obj s1) ∧
      run cs s1 = some s2 ∧ s2.world.trace = s1.world.trace ++ added ∧
      (∀ o ∈ outs, ¬ registered o.obj s2) ∧
      ∀ o ∈ outs, ∀ ev ∈ added, ev.1 ≠ o.obj := by
  obtain ⟨_, hbound, _, hdis⟩ := (wf_iff s).1 hwf X outs hX
  obtain ⟨r, _, hit⟩ := daemon_iteration_present t s (X, Thread_REMOVE) q outs hq hX
  obtain ⟨s1, hs1, hreg1, hfr1⟩ : ∃ s1, daemon_iteration t s = some s1 ∧
      s1.outputs_ = erase s.outputs_ X ∧ s1.fresh = s.fresh := ⟨_, hit, by simp, rfl⟩
  have hgone : ∀ o ∈ outs, ¬ registered o.obj s1 := by
    intro o ho hreg
    rw [registered_iff, hreg1] at hreg
    obtain ⟨Y, b, hb, hib⟩ := hreg
    by_cases hY : X = Y
    · rw [← hY, find_erase_same] at hb
      cases hb
    · rw [find_erase_other _ _ _ hY] at hb
      exact hdis Y b hb hY o.obj (List.mem_map.mpr ⟨o, ho, rfl⟩) hib
  obtain ⟨s2, hrun⟩ := run_total cs s1
  obtain ⟨added, hadded⟩ := run_trace cs s1 s2 hrun
  refine ⟨s1, s2, added, by simp only [daemon_step, hs, Bool.false_eq_true, if_false]; exact hs1,
    by rw [hreg1, find_erase_same], hgone, hrun, hadded, ?_, ?_⟩
  · intro o ho
    exact (run_unregistered o.obj cs s1 s2 hrun
      (by rw [hfr1]; exact hbound _ (List.mem_map.mpr ⟨o, ho, rfl⟩)) (hgone o ho)).2.1
  · intro o ho
    obtain ⟨_, _, added', hadded', hev⟩ := run_unregistered o.obj cs s1 s2 hrun
      (by rw [hfr1]; exact hbound _ (List.mem_map.mpr ⟨o, ho, rfl⟩)) (hgone o ho)
    rw [hadded] at hadded'
    rw [List.append_cancel_left hadded']
    exact hev

/-- Witness of C9: thread `1` is removed from a just started logger whose start marker has been
dispatched; it then registers a new console output and logs `a`, which goes to the new object
`2` and not to the removed objects `0` and `1`. -/
theorem no_write_after_removal_witness :
    daemon_step "T0" (remove_thread_ouput ⟨"1"⟩ started) = some removing ∧ wf removing ∧
    ∃ s1 s2 added, daemon_step "T1" removing = some s1 ∧ find s1.outputs_ ⟨"1"⟩ = none ∧
      run [Call.add_output ⟨"1"⟩ Log_type.Console "" true, Call.add_log ⟨"1"⟩ "a",
           Call.daemon "T2"] s1 = some s2 ∧
      s2.world.trace = s1.world.trace ++ added ∧
      ∀ o ∈ [Output.Console_Log 0,
             Output.File_Log 1 { filename := "logs/log.txt", app := true, pos := 0 }],
        ∀ ev ∈ added, ev.1 ≠ o.obj := by
  obtain ⟨s1, s2, added, h1, h2, _, h4, h5, _, h7⟩ := no_write_after_removal ⟨"1"⟩ removing []
    [Output.Console_Log 0, Output.File_Log 1 { filename := "logs/log.txt", app := true, pos := 0 }]
    "T1" [Call.add_output ⟨"1"⟩ Log_type.Console "" true, Call.add_log ⟨"1"⟩ "a",
          Call.daemon "T2"]
    (by decide) (by decide) (by decide) (by decide)
  exact ⟨by decide, by decide, s1, s2, added, h1, h2, h4, h5, h7⟩

theorem pwrite_at_end (old data : String) :
    String.mk (pwrite old.data old.length data.data) = old ++ data := by
  obtain ⟨l⟩ := old
  obtain ⟨d⟩ := data
  apply String.ext
  show pwrite l l.length d = l ++ d
  simp [pwrite]

/-- The file after a flushed output, when the stream appends or stands at the end of the file. -/
theorem put_at_end (file_ : ofstream) (data : String) (files : Files)
    (h : file_.app = true ∨ file_.pos = (content files file_.filename).length) :
    content (file_.put data files).2 file_.filename = content files file_.filename ++ data := by
  by_cases happ : file_.app = true
  · simp [ofstream.put, happ, content_assign]
  · rcases h with h | h
    · exact absurd h happ
    · simp only [ofstream.put, happ, Bool.false_eq_true, if_false, content_assign, h]
      exact pwrite_at_end _ _

/-- C10: for every message whose split on `-` yields at least three fields `f0`, `f1`, `f2`,
`CSV_Log::write_log` sends exactly the row `f0,f1,f2` and a line terminator to its stream, whatever
the further fields; the row is appended to the file when the stream was opened in append mode
or stands at the end of the file.  For the message `a-b-c` the row is `a,b,c`. -/
theorem csv_write_row (obj : Nat) (file_ : ofstream) (message : String) (w : World)
    (f0 f1 f2 : String) (more : List String)
    (h : CSV_Log.split message '-' = f0 :: f1 :: f2 :: more) :
    CSV_Log.write_log file_ message w.files
      = some (file_.put (f0 ++ "," ++ f1 ++ "," ++ f2 ++ "\n") w.files) ∧
    (Output.CSV_Log obj file_).write_log message w
      = some (Output.CSV_Log obj (file_.put (f0 ++ "," ++ f1 ++ "," ++ f2 ++ "\n") w.files).1,
          { w with files := (file_.put (f0 ++ "," ++ f1 ++ "," ++ f2 ++ "\n") w.files).2,
                   trace := w.trace ++ [(obj, message)] }) ∧
    (file_.app = true ∨ file_.pos = (content w.files file_.filename).length →
      content (file_.put (f0 ++ "," ++ f1 ++ "," ++ f2 ++ "\n") w.files).2 file_.filename
        = content w.files file_.filename ++ (f0 ++ "," ++ f1 ++ "," ++ f2 ++ "\n")) ∧
    CSV_Log.split "a-b-c" '-' = ["a", "b", "c"] ∧
    CSV_Log.write_log file_ "a-b-c" w.files = some (file_.put "a,b,c\n" w.files) := by
  have h1 : CSV_Log.write_log file_ message w.files
      = some (file_.put (f0 ++ "," ++ f1 ++ "," ++ f2 ++ "\n") w.files) := by
    simp [CSV_Log.write_log, h]
  have habc : CSV_Log.split "a-b-c" '-' = ["a", "b", "c"] := by decide
  refine ⟨h1, ?_, put_at_end file_ _ w.files, habc, ?_⟩
  · simp [Output.write_log, h1]
  · have : ("a" ++ "," ++ "b" ++ "," ++ "c" ++ "\n" : String) = "a,b,c\n" := by decide
    simp [CSV_Log.write_log, habc, this]

/-- Witness of C10: the message `x-y-z-w` is written to a CSV stream in append mode on a file that
holds one row; the file then holds that row and `x,y,z`. -/
theorem csv_write_row_witness :
    CSV_Log.split "x-y-z-w" '-' = ["x", "y", "z", "w"] ∧
    CSV_Log.write_log { filename := "l.csv", app := true, pos := 0 } "x-y-z-w"
        [("l.csv", "a,b,c\n")]
      = some ({ filename := "l.csv", app := true, pos := 0 }, [("l.csv", "a,b,c\nx,y,z\n")]) := by
  have h := (csv_write_row 0 { filename := "l.csv", app := true, pos := 0 } "x-y-z-w"
    { files := [("l.csv", "a,b,c\n")], cout := "", trace := [] } "x" "y" "z" ["w"]
    (by decide)).1
  exact ⟨by decide, h.trans (by decide)⟩

/-! ## The fields of the line that the daemon builds -/

theorem fields_first (d : Char) (a rest : List Char) (ha : d ∉ a) :
    fields d (a ++ d :: rest) = a :: fields d rest := by
  induction a with
  | nil => simp [fields]
  | cons c a ih =>
    have hc : c ≠ d := fun h => ha (by simp [h])
    have ha' : d ∉ a := fun h => ha (by simp [h])
    simp [fields, hc, ih ha']

/-- The fields of the formatted line when neither the time string nor the identity holds a `-`:
the bracketed time, the bracketed identity, and the fields of the payload behind a blank. -/
theorem split_log_message_fields (time : String) (X : thread.id) (p : String)
    (ht : '-' ∉ time.data) (hX : '-' ∉ (convert_to_str X).data) :
    CSV_Log.split (log_message time (X, p)) '-'
      = ("[" ++ time ++ "] ") :: (" [" ++ convert_to_str X ++ "]\t")
          :: (fields '-' (' ' :: p.data)).map String.mk := by
  rw [split_eq_fields, log_message_data]
  simp only [convert_to_str] at hX ⊢
  rw [fields_first '-' _ _ (by simp [ht]), fields_first '-' _ _ (by simp [hX])]
  simp only [List.map_cons]
  refine congrArg₂ _ (String.ext (by simp [String.data_append])) (congrArg₂ _ ?_ rfl)
  exact String.ext (by simp [String.data_append])

/-- C11, as stated, fails: thread `7` has a CSV output on `l.csv` as its only output and logs
`a-b-c`; the daemon hands the whole formatted line to the output, and the row written is made
of the time, the identity and the part of the payload before its first `-`. -/
theorem csv_round_trip_counterexample :
    ∃ s', run [Call.add_output ⟨"7"⟩ Log_type.CSVLog "l.csv" true, Call.add_log ⟨"7"⟩ "a-b-c",
               Call.daemon "Mon"] idle = some s' ∧
      s'.messages_queue = [] ∧
      content s'.world.files "l.csv" = "[Mon] , [7]\t, a\n" ∧
      content s'.world.files "l.csv" ≠ "a,b,c\n" := by
  decide

/-- C11 (amended): for an identity `X` whose only output is a CSV output, the turn of the daemon
that dispatches the entry `(X, "a-b-c")` hands the formatted line to the output, and when neither
the time string nor the text of `X` holds a `-` the row sent to the CSV stream is the bracketed
time, the bracketed identity and ` a`: it is the row `[time] , [X]\t, a`, appended to the file
when the stream appends or stands at the end of the file. -/
theorem csv_through_logger (X : thread.id) (time : String) (obj : Nat) (file_ : ofstream)
    (s : State) (q : List (thread.id × String))
    (hq : s.messages_queue = (X, "a-b-c") :: q)
    (hX : find s.outputs_ X = some [Output.CSV_Log obj file_])
    (ht : '-' ∉ time.data) (hid : '-' ∉ (convert_to_str X).data) :
    ∃ s', daemon_iteration time s = some s' ∧
      s'.world.trace = s.world.trace
        ++ [(obj, "[" ++ time ++ "] - [" ++ convert_to_str X ++ "]\t- " ++ "a-b-c")] ∧
      s'.world.files
        = (file_.put ("[" ++ time ++ "] " ++ "," ++ (" [" ++ convert_to_str X ++ "]\t") ++ ","
            ++ " a" ++ "\n") s.world.files).2 ∧
      (file_.app = true ∨ file_.pos = (content s.world.files file_.filename).length →
        content s'.world.files file_.filename
          = content s.world.files file_.filename
            ++ ("[" ++ time ++ "] " ++ "," ++ (" [" ++ convert_to_str X ++ "]\t") ++ ","
                ++ " a" ++ "\n")) := by
  obtain ⟨r, hr, hit⟩ := daemon_iteration_present time s (X, "a-b-c") q _ hq hX
  have hsplit := split_log_message_fields time X "a-b-c" ht hid
  have hf : (fields '-' (' ' :: ("a-b-c" : String).data)).map String.mk = [" a", "b", "c"] := by
    decide
  rw [hf] at hsplit
  have hw : CSV_Log.write_log file_ (log_message time (X, "a-b-c")) s.world.files
      = some (file_.put ("[" ++ time ++ "] " ++ "," ++ (" [" ++ convert_to_str X ++ "]\t") ++ ","
            ++ " a" ++ "\n") s.world.files) := by
    simp [CSV_Log.write_log, hsplit]
  simp only [write_all, Output.write_log, hw, Option.some.injEq] at hr
  obtain ⟨s', hs', hworld⟩ : ∃ s', daemon_iteration time s = some s' ∧ s'.world = r.2 :=
    ⟨_, hit, rfl⟩
  refine ⟨s', hs', ?_, ?_, ?_⟩
  · rw [hworld, ← hr, ← log_message_eq]
  · rw [hworld, ← hr]
  · intro hend
    rw [hworld, ← hr]
    exact put_at_end file_ _ s.world.files hend

/-- Witness of C11 (amended): thread `7` registers a CSV output on `l.csv` with an idle logger
and logs `a-b-c`; the file then holds the row made of time, identity and ` a`. -/
theorem csv_through_logger_witness :
    ∃ s', daemon_iteration "Mon"
        (add_log ⟨"7"⟩ "a-b-c" (add_output ⟨"7"⟩ Log_type.CSVLog "l.csv" true idle)).2
        = some s' ∧
      content s'.world.files "l.csv" = "[Mon] , [7]\t, a\n" := by
  obtain ⟨s', h1, _, _, h4⟩ := csv_through_logger ⟨"7"⟩ "Mon" 0
    { filename := "l.csv", app := true, pos := 0 }
    (add_log ⟨"7"⟩ "a-b-c" (add_output ⟨"7"⟩ Log_type.CSVLog "l.csv" true idle)).2 []
    (by decide) (by decide) (by decide) (by decide)
  exact ⟨s', h1, (h4 (Or.inl rfl)).trans (by decide)⟩

/-! ## The number of fields -/

/-- The number of fields is one more than the number of delimiters before the last character. -/
theorem fields_length (d : Char) (s : List Char) :
    (fields d s).length = if s = [] then 0 else s.dropLast.count d + 1 := by
  induction s with
  | nil => simp [fields]
  | cons c cs ih =>
    cases cs with
    | nil =>
      by_cases hc : c = d <;> simp [fields, hc]
    | cons c' cs' =>
      simp only [reduceCtorEq, if_false] at ih
      simp only [reduceCtorEq, if_false, List.dropLast_cons₂]
      by_cases hc : c = d
      · subst hc
        have hstep : (fields c (c :: c' :: cs')).length = (fields c (c' :: cs')).length + 1 := by
          rw [fields]
          simp
        rw [hstep, ih, List.count_cons_self]
      · have hne : fields d (c' :: cs') ≠ [] := by
          intro h
          rw [h] at ih
          simp at ih
        have hstep : (fields d (c :: c' :: cs')).length = (fields d (c' :: cs')).length := by
          cases hf : fields d (c' :: cs') with
          | nil => exact absurd hf hne
          | cons tok toks =>
            have : fields d (c :: c' :: cs') = (c :: tok) :: toks := by
              rw [fields]
              simp only [hc, if_false, hf]
            rw [this]
            rfl
        rw [hstep, ih, List.count_cons_of_ne (Ne.symm hc)]

theorem split_length (s : String) :
    (CSV_Log.split s '-').length
      = if s.data = [] then 0 else s.data.dropLast.count '-' + 1 := by
  rw [split_eq_fields, List.length_map, fields_length]

/-- With fewer than three fields `CSV_Log::write_log` reads a field that does not exist. -/
theorem CSV_write_log_short (file_ : ofstream) (message : String) (files : Files)
    (h : (CSV_Log.split message '-').length < 3) :
    CSV_Log.write_log file_ message files = none := by
  unfold CSV_Log.write_log
  match hs : CSV_Log.split message '-' with
  | [] => rfl
  | [_] => rfl
  | [_, _] => rfl
  | d0 :: d1 :: d2 :: more =>
    rw [hs] at h
    simp only [List.length_cons] at h
    omega

/-- C12 (the code at the failing inputs): for the empty message, for `solo` and for `a-b` the
split yields zero, one and two fields, and `CSV_Log::write_log` indexes `data[0]`, `data[1]` and
`data[2]` all the same: the call is undefined behaviour (`none`), not a failed single write, and
a loop over outputs that contains it does not continue. -/
theorem csv_short_message_undefined :
    CSV_Log.split "" '-' = [] ∧ CSV_Log.split "solo" '-' = ["solo"] ∧
    CSV_Log.split "a-b" '-' = ["a", "b"] ∧
    CSV_Log.write_log { filename := "l.csv", app := true, pos := 0 } "" [] = none ∧
    CSV_Log.write_log { filename := "l.csv", app := true, pos := 0 } "solo" [] = none ∧
    CSV_Log.write_log { filename := "l.csv", app := true, pos := 0 } "a-b" [] = none ∧
    write_all "a-b"
      [Output.CSV_Log 0 { filename := "l.csv", app := true, pos := 0 }, Output.Console_Log 1]
      { files := [], cout := "", trace := [] } = none := by
  decide

/-- C13, as stated, fails: `a-b-` holds two `-` characters, the split yields the two fields `a`
and `b` only (no field follows the last delimiter), and `CSV_Log::write_log` has no third field
to write. -/
theorem split_two_dashes_counterexample :
    ("a-b-" : String).data.count '-' = 2 ∧ CSV_Log.split "a-b-" '-' = ["a", "b"] ∧
    CSV_Log.split "--" '-' = ["", ""] ∧
    CSV_Log.write_log { filename := "l.csv", app := true, pos := 0 } "a-b-" [] = none := by
  decide

/-- C13 (amended): for every string with at least two `-` characters before its last character
(so that at least one character follows the second `-`), `CSV_Log::split` returns at least three
fields and `CSV_Log::write_log` writes a row for it; and the split has three fields or more only
for such strings. -/
theorem split_three_fields (s : String) (file_ : ofstream) (files : Files)
    (h : 2 ≤ s.data.dropLast.count '-') :
    3 ≤ (CSV_Log.split s '-').length ∧
    (∃ r, CSV_Log.write_log file_ s files = some r) ∧
    ∀ t : String, 3 ≤ (CSV_Log.split t '-').length ↔ 2 ≤ t.data.dropLast.count '-' := by
  have hiff : ∀ t : String,
      3 ≤ (CSV_Log.split t '-').length ↔ 2 ≤ t.data.dropLast.count '-' := by
    intro t
    rw [split_length]
    by_cases ht : t.data = []
    · simp [ht]
    · simp only [ht, if_false]
      omega
  have h3 := (hiff s).2 h
  exact ⟨h3, CSV_write_log_total file_ s files h3, hiff⟩

/-- Witness of C13 (amended): `a-b-c` has two `-` before its last character and three fields. -/
theorem split_three_fields_witness :
    2 ≤ ("a-b-c" : String).data.dropLast.count '-' ∧
    3 ≤ (CSV_Log.split "a-b-c" '-').length ∧
    ∃ r, CSV_Log.write_log { filename := "l.csv", app := true, pos := 0 } "a-b-c" [] = some r :=
  ⟨by decide,
    (split_three_fields "a-b-c" { filename := "l.csv", app := true, pos := 0 } []
      (by decide)).1,
    (split_three_fields "a-b-c" { filename := "l.csv", app := true, pos := 0 } []
      (by decide)).2.1⟩

/-! ## Frame conditions of the public methods -/

theorem content_assign_other (files : Files) (path path' text : String) (h : path ≠ path') :
    content (assign files path text) path' = content files path' := by
  simp [content, find_assign_other _ _ _ _ h]

theorem add_output_kind (X : thread.id) (k : Log_type) (path : String) (a : Bool) (s : State) :
    ∃ o, find (add_output X k path a s).outputs_ X = some ((find s.outputs_ X).getD [] ++ [o]) ∧
      o.obj = s.fresh ∧ o.kind = k := by
  cases hf : find s.outputs_ X with
  | none =>
    cases k <;> cases a <;>
      simp [add_output, hf, find_assign_same, Output.obj, Output.kind, File_Log.new,
        CSV_Log.new, ofstream_open]
  | some outs =>
    cases k <;> cases a <;>
      simp [add_output, hf, find_assign_same, Output.obj, Output.kind, File_Log.new,
        CSV_Log.new, ofstream_open]

/-- C14: `add_output X kind path append` makes `X`'s list its previous list (empty when `X` had
no entry) with exactly one new object of that kind at the end; the lists of all other
identities, the queue, the stop flag and the history of writes are unchanged. -/
theorem add_output_frame (s : State) (X : thread.id) (kind : Log_type) (path : String)
    (append_ : Bool) :
    (∃ o, o.kind = kind ∧ o.obj = s.fresh ∧
      find (add_output X kind path append_ s).outputs_ X
        = some ((find s.outputs_ X).getD [] ++ [o])) ∧
    (∀ Y, Y ≠ X → find (add_output X kind path append_ s).outputs_ Y = find s.outputs_ Y) ∧
    (add_output X kind path append_ s).messages_queue = s.messages_queue ∧
    (add_output X kind path append_ s).stop_daemon = s.stop_daemon ∧
    (add_output X kind path append_ s).popped = s.popped ∧
    (add_output X kind path append_ s).world.trace = s.world.trace := by
  obtain ⟨o, h1, h2, h3⟩ := add_output_kind X kind path append_ s
  obtain ⟨g1, g2, g3, _, g5, _, g7⟩ := add_output_fields X kind path append_ s
  exact ⟨⟨o, h3, h2, h1⟩, g7, g1, g2, g3, g5⟩

/-- C15: `remove_thread_ouput X`, for `X` registered or not, only appends the entry
`(X, "Thread_RM")` at the back of the queue: the registry and everything else are as before the
call; `X`'s entry goes when the daemon pops the removal entry, whose turn leaves `X`
unregistered. -/
theorem remove_only_enqueues (s : State) (X : thread.id) :
    remove_thread_ouput X s
      = { s with messages_queue := s.messages_queue ++ [(X, "Thread_RM")] } ∧
    (remove_thread_ouput X s).messages_queue = s.messages_queue ++ [(X, "Thread_RM")] ∧
    (remove_thread_ouput X s).outputs_ = s.outputs_ ∧
    find (remove_thread_ouput X s).outputs_ X = find s.outputs_ X ∧
    (remove_thread_ouput X s).world = s.world ∧
    (remove_thread_ouput X s).stop_daemon = s.stop_daemon ∧
    ∀ (u : State) (q : List (thread.id × String)) (time : String),
      u.messages_queue = (X, "Thread_RM") :: q →
      ∃ u', daemon_iteration time u = some u' ∧ find u'.outputs_ X = none := by
  refine ⟨rfl, rfl, rfl, rfl, rfl, rfl, ?_⟩
  intro u q time hq
  obtain ⟨u', hu'⟩ := daemon_iteration_total time u
  exact ⟨u', hu', daemon_iteration_remove time u u' X q hq hu'⟩

/-- C16: the turn of the daemon that pops a removal entry for `X`: when `X` is registered the
formatted removal marker is written to every output of `X`'s list, in order, and `X`'s whole
entry is then erased while the entry of every other identity stays; when `X` is not registered
nothing is written and the registry stays as it is. -/
theorem remove_turn (X : thread.id) (time : String) (s : State)
    (q : List (thread.id × String)) (hq : s.messages_queue = (X, Thread_REMOVE) :: q) :
    (∀ outs, find s.outputs_ X = some outs →
      ∃ s', daemon_iteration time s = some s' ∧
        s'.world.trace = s.world.trace
          ++ outs.map
              (fun o => (o.obj, "[" ++ time ++ "] - [" ++ convert_to_str X ++ "]\t- " ++ "Thread_RM")) ∧
        s'.outputs_ = erase s.outputs_ X ∧ find s'.outputs_ X = none ∧
        (∀ Y, Y ≠ X → find s'.outputs_ Y = find s.outputs_ Y) ∧
        s'.messages_queue = q ∧ s'.stop_daemon = s.stop_daemon) ∧
    (find s.outputs_ X = none →
      ∃ s', daemon_iteration time s = some s' ∧ s'.world = s.world ∧
        s'.outputs_ = s.outputs_ ∧ s'.messages_queue = q ∧ s'.stop_daemon = s.stop_daemon) := by
  have hns : Thread_REMOVE ≠ Lg_STOP := by decide
  constructor
  · intro outs hX
    obtain ⟨r, hr, hit⟩ := daemon_iteration_present time s (X, Thread_REMOVE) q outs hq hX
    simp only [if_true, hns, if_false] at hit
    refine ⟨_, hit, ?_, rfl, find_erase_same _ _, ?_, rfl, rfl⟩
    · have := (write_all_spec _ _ _ _ hr).2
      rw [log_message_eq] at this
      exact this
    · intro Y hY
      exact find_erase_other _ _ _ (Ne.symm hY)
  · intro hX
    have hit := daemon_iteration_absent time s (X, Thread_REMOVE) q hq hX
    simp only [hns, if_false] at hit
    exact ⟨_, hit, rfl, rfl, rfl, rfl⟩

/-- Witness of C16: the turn on the removal entry of thread `1` writes the marker to its two
outputs and erases its entry. -/
theorem remove_turn_witness :
    removing.messages_queue = [(⟨"1"⟩, Thread_REMOVE)] ∧
    ∃ s', daemon_iteration "T1" removing = some s' ∧
      s'.world.trace = removing.world.trace
        ++ [(0, "[T1] - [1]\t- Thread_RM"), (1, "[T1] - [1]\t- Thread_RM")] ∧
      s'.outputs_ = [] := by
  obtain ⟨s', h1, h2, h3, _⟩ := (remove_turn ⟨"1"⟩ "T1" removing [] (by decide)).1
    [Output.Console_Log 0, Output.File_Log 1 { filename := "logs/log.txt", app := true, pos := 0 }]
    (by decide)
  exact ⟨by decide, s', h1, h2.trans (by decide), h3.trans (by decide)⟩

/-! ## Construction and the opening of files -/

/-- C17: right after construction by thread `C` the registry holds, for `C` alone, a console
output and a text-file output on `logs/log.txt` in append mode, the queue holds the one entry
`(C, "Logger_START")` and the stop flag is false; the first turn of the daemon writes the
formatted start marker to both outputs, as for any message, and changes nothing else. -/
theorem construction (C : thread.id) (w : World) (time : String) :
    (constructor C w).outputs_
      = [(C, [Output.Console_Log 0,
              Output.File_Log 1 { filename := "logs/log.txt", app := true, pos := 0 }])] ∧
    (constructor C w).messages_queue = [(C, "Logger_START")] ∧
    (constructor C w).stop_daemon = false ∧
    (constructor C w).world.trace = w.trace ∧ (constructor C w).world.cout = w.cout ∧
    content (constructor C w).world.files "logs/log.txt" = content w.files "logs/log.txt" ∧
    ∃ s', daemon_step time (constructor C w) = some s' ∧
      s'.world.trace = w.trace
        ++ [(0, "[" ++ time ++ "] - [" ++ convert_to_str C ++ "]\t- " ++ "Logger_START"),
            (1, "[" ++ time ++ "] - [" ++ convert_to_str C ++ "]\t- " ++ "Logger_START")] ∧
      s'.world.cout = w.cout
        ++ ("[" ++ time ++ "] - [" ++ convert_to_str C ++ "]\t- " ++ "Logger_START") ++ "\n" ∧
      content s'.world.files "logs/log.txt" = content w.files "logs/log.txt"
        ++ (("[" ++ time ++ "] - [" ++ convert_to_str C ++ "]\t- " ++ "Logger_START") ++ "\n") ∧
      s'.outputs_ = (constructor C w).outputs_ ∧ s'.messages_queue = [] ∧
      s'.stop_daemon = false := by
  have hreg : (constructor C w).outputs_
      = [(C, [Output.Console_Log 0,
              Output.File_Log 1 { filename := "logs/log.txt", app := true, pos := 0 }])] := by
    simp [constructor, add_output, find, assign, File_Log.new, ofstream_open]
  have hq : (constructor C w).messages_queue = [(C, "Logger_START")] := by
    simp [constructor, add_output, find, Lg_START]
  have hfiles : (constructor C w).world.files
      = assign w.files "logs/log.txt" (content w.files "logs/log.txt") := by
    simp [constructor, add_output, find, File_Log.new, ofstream_open]
  have htrace : (constructor C w).world.trace = w.trace := by
    simp [constructor, add_output, find]
  have hcout : (constructor C w).world.cout = w.cout := by
    simp [constructor, add_output, find]
  have hstop : (constructor C w).stop_daemon = false := by
    simp [constructor]
  refine ⟨hreg, hq, hstop, htrace, hcout, by rw [hfiles, content_assign], ?_⟩
  have hfind : find (constructor C w).outputs_ C
      = some [Output.Console_Log 0,
              Output.File_Log 1 { filename := "logs/log.txt", app := true, pos := 0 }] := by
    rw [hreg]
    simp [find]
  obtain ⟨r, hr, hit⟩ := daemon_iteration_present time (constructor C w) (C, "Logger_START") []
    _ hq hfind
  have hns : ("Logger_START" : String) ≠ Lg_STOP := by decide
  have hnr : ("Logger_START" : String) ≠ Thread_REMOVE := by decide
  simp only [hns, hnr, if_false, hstop] at hit
  simp only [write_all, Output.write_log, Console_Log.write_log, File_Log.write_log,
    ofstream.put, if_true, Option.some.injEq] at hr
  refine ⟨_, by simp only [daemon_step, hstop, Bool.false_eq_true, if_false]; exact hit,
    ?_, ?_, ?_, ?_, rfl, rfl⟩
  · rw [← hr, htrace, log_message_eq]
    simp
  · rw [← hr, hcout, log_message_eq]
  · rw [← hr, hfiles, log_message_eq]
    simp only [content_assign]
  · rw [← hr, hreg]
    simp [assign]

/-- C18: a text-file output built with an empty path is opened on `logs/log.txt`, a CSV output
built with an empty path on `logs/log.csv`, and a non-empty path is used as it is.  With the
append flag the stream appends and the file keeps its content; without it the stream starts at
offset 0 of a file whose content is discarded.  No other file is touched. -/
theorem open_modes (obj : Nat) (path : String) (append_ : Bool) (files : Files) :
    (File_Log.new obj path append_ files).1
      = Output.File_Log obj
          { filename := if path = "" then "logs/log.txt" else path, app := append_, pos := 0 } ∧
    (CSV_Log.new obj path append_ files).1
      = Output.CSV_Log obj
          { filename := if path = "" then "logs/log.csv" else path, app := append_, pos := 0 } ∧
    content (File_Log.new obj path append_ files).2 (if path = "" then "logs/log.txt" else path)
      = (if append_ then content files (if path = "" then "logs/log.txt" else path) else "") ∧
    content (CSV_Log.new obj path append_ files).2 (if path = "" then "logs/log.csv" else path)
      = (if append_ then content files (if path = "" then "logs/log.csv" else path) else "") ∧
    (∀ other, other ≠ (if path = "" then "logs/log.txt" else path) →
      content (File_Log.new obj path append_ files).2 other = content files other) ∧
    (∀ other, other ≠ (if path = "" then "logs/log.csv" else path) →
      content (CSV_Log.new obj path append_ files).2 other = content files other) := by
  cases append_ <;>
    simp only [File_Log.new, CSV_Log.new, ofstream_open, if_true, if_false, content_assign,
      Bool.false_eq_true, true_and] <;>
    exact ⟨fun other h => content_assign_other _ _ _ _ (Ne.symm h),
      fun other h => content_assign_other _ _ _ _ (Ne.symm h)⟩

/-- C20: for a registered identity `X`, `add_log X "Thread_RM"` is accepted and leaves the logger
in exactly the state that `remove_thread_ouput X` leaves it in, so that the daemon later erases
`X`'s outputs; likewise `add_log X "Logger_STOP"` leaves the state that the destructor leaves,
and the turn that pops an entry with the payload `Logger_STOP`, however it came into the queue,
sets the stop flag, after which the daemon does nothing more. -/
theorem sentinel_messages (X : thread.id) (s : State) (hX : find s.outputs_ X ≠ none) :
    (add_log X "Thread_RM" s).1 = true ∧
    (add_log X "Thread_RM" s).2 = remove_thread_ouput X s ∧
    (∀ (u : State) (q : List (thread.id × String)) (time : String),
      u.messages_queue = (X, "Thread_RM") :: q →
      ∃ u', daemon_iteration time u = some u' ∧ find u'.outputs_ X = none) ∧
    (add_log X "Logger_STOP" s).1 = true ∧
    (add_log X "Logger_STOP" s).2 = destructor X s ∧
    ∀ (u : State) (q : List (thread.id × String)) (time : String) (times : List String),
      u.messages_queue = (X, "Logger_STOP") :: q →
      ∃ u', daemon_iteration time u = some u' ∧ u'.stop_daemon = true ∧
        u'.messages_queue = q ∧ daemon_thread times u' = some u' := by
  cases hf : find s.outputs_ X with
  | none => exact absurd hf hX
  | some outs =>
    refine ⟨by simp [add_log, hf], by simp [add_log, hf, remove_thread_ouput, Thread_REMOVE],
      ?_, by simp [add_log, hf], by simp [add_log, hf, destructor, Lg_STOP], ?_⟩
    · intro u q time hq
      obtain ⟨u', hu'⟩ := daemon_iteration_total time u
      exact ⟨u', hu', daemon_iteration_remove time u u' X q hq hu'⟩
    · intro u q time times hq
      obtain ⟨u', hu'⟩ := daemon_iteration_total time u
      obtain ⟨h1, _, _, h4⟩ := daemon_iteration_queue time u u' (X, "Logger_STOP") q hq hu'
      have hstop : u'.stop_daemon = true := by
        rw [h4]
        simp [Lg_STOP]
      exact ⟨u', hu', hstop, h1, daemon_thread_stopped times u' hstop⟩

/-- Witness of C20: thread `1` of a just started logger logs the two reserved texts. -/
theorem sentinel_messages_witness :
    find started.outputs_ ⟨"1"⟩ ≠ none ∧
    (add_log ⟨"1"⟩ "Thread_RM" started).2 = remove_thread_ouput ⟨"1"⟩ started ∧
    (add_log ⟨"1"⟩ "Logger_STOP" started).2 = destructor ⟨"1"⟩ started :=
  ⟨by decide, (sentinel_messages ⟨"1"⟩ started (by decide)).2.1,
    (sentinel_messages ⟨"1"⟩ started (by decide)).2.2.2.2.1⟩

/-! ## Several identities logging to one file -/

/-- Once the stop flag is set, no transition pops an entry or writes to an output. -/
theorem run_stopped (cs : List Call) (s : State) (hs : s.stop_daemon = true) :
    ∃ s', run cs s = some s' ∧ s'.stop_daemon = true ∧ s'.popped = s.popped ∧
      s'.world.trace = s.world.trace := by
  induction cs generalizing s with
  | nil => exact ⟨s, rfl, hs, rfl, rfl⟩
  | cons c cs ih =>
    cases c with
    | add_output X k p a =>
      obtain ⟨_, g2, g3, _, g5, _, _⟩ := add_output_fields X k p a s
      obtain ⟨s', h1, h2, h3, h4⟩ := ih (add_output X k p a s) (by rw [g2, hs])
      exact ⟨s', by simpa [run, Call.apply] using h1, h2, by rw [h3, g3], by rw [h4, g5]⟩
    | add_log X m =>
      obtain ⟨_, g2, g3, _, g5, _, _⟩ := add_log_fields X m s
      obtain ⟨s', h1, h2, h3, h4⟩ := ih (add_log X m s).2 (by rw [g2, hs])
      exact ⟨s', by simpa [run, Call.apply] using h1, h2, by rw [h3, g3], by rw [h4, g5]⟩
    | remove_thread_ouput X =>
      obtain ⟨s', h1, h2, h3, h4⟩ := ih (remove_thread_ouput X s) hs
      exact ⟨s', by simpa [run, Call.apply] using h1, h2, h3, h4⟩
    | daemon t =>
      obtain ⟨s', h1, h2, h3, h4⟩ := ih s hs
      exact ⟨s', by simp [run, Call.apply, daemon_step, hs, h1], h2, h3, h4⟩

/-- C21: for every time string, identity text and payload, the empty payload and payloads
without `-` included, the line that the daemon builds splits on `-` into at least three fields;
`CSV_Log::write_log` on that line therefore reads `data[0]`, `data[1]` and `data[2]` in bounds,
and no turn of the daemon and no sequence of calls and turns runs into undefined behaviour, as
for the message `Message from thread 1` of the CSV test. -/
theorem formatted_line_three_fields (ts id payload : String) :
    log_message ts (⟨id⟩, payload) = "[" ++ ts ++ "] - [" ++ id ++ "]\t- " ++ payload ∧
    3 ≤ (CSV_Log.split ("[" ++ ts ++ "] - [" ++ id ++ "]\t- " ++ payload) '-').length ∧
    (∀ (file_ : ofstream) (files : Files),
      ∃ d0 d1 d2 more,
        CSV_Log.split ("[" ++ ts ++ "] - [" ++ id ++ "]\t- " ++ payload) '-'
          = d0 :: d1 :: d2 :: more ∧
        CSV_Log.write_log file_ ("[" ++ ts ++ "] - [" ++ id ++ "]\t- " ++ payload) files
          = some (file_.put (d0 ++ "," ++ d1 ++ "," ++ d2 ++ "\n") files)) ∧
    (∀ s : State, ∃ s', daemon_iteration ts s = some s') ∧
    (∀ (cs : List Call) (s : State), ∃ s', run cs s = some s') ∧
    3 ≤ (CSV_Log.split ("[" ++ ts ++ "] - [" ++ id ++ "]\t- " ++ "") '-').length ∧
    3 ≤ (CSV_Log.split ("[" ++ ts ++ "] - [" ++ id ++ "]\t- " ++ "Message from thread 1")
          '-').length := by
  have hline : ∀ p : String,
      3 ≤ (CSV_Log.split ("[" ++ ts ++ "] - [" ++ id ++ "]\t- " ++ p) '-').length := by
    intro p
    have h := split_log_message ts (⟨id⟩, p)
    rwa [log_message_eq] at h
  refine ⟨log_message_eq ts ⟨id⟩ payload, hline payload, ?_, daemon_iteration_total ts,
    run_total, hline "", hline "Message from thread 1"⟩
  intro file_ files
  have h3 := hline payload
  match hs : CSV_Log.split ("[" ++ ts ++ "] - [" ++ id ++ "]\t- " ++ payload) '-' with
  | [] => simp [hs] at h3
  | [_] => simp [hs] at h3
  | [_, _] => simp [hs] at h3
  | d0 :: d1 :: d2 :: more =>
    refine ⟨d0, d1, d2, more, rfl, ?_⟩
    have hs' : CSV_Log.split ("[" ++ ts ++ "] - [" ++ convert_to_str ⟨id⟩ ++ "]\t- " ++ payload)
        '-' = d0 :: d1 :: d2 :: more := hs
    simp only [convert_to_str] at hs'
    simp [CSV_Log.write_log, hs']

/-- C22: the turn of the daemon that pops an entry with the payload `Logger_STOP` sets the stop
flag, whether the identity of the entry is registered (the formatted line is then written to
its outputs) or not (nothing is written); the loop ends there, and under whatever calls and
turns follow no entry is popped and no output written any more, so the entries behind the stop
entry are never dispatched.  A turn on any other payload leaves the stop flag false. -/
theorem stop_turn (X : thread.id) (time : String) (s : State) (q : List (thread.id × String))
    (hs : s.stop_daemon = false) (hq : s.messages_queue = (X, "Logger_STOP") :: q) :
    (∃ s', daemon_step time s = some s' ∧ s'.stop_daemon = true ∧ s'.messages_queue = q ∧
      s'.popped = s.popped ++ [(X, "Logger_STOP")] ∧
      (∀ outs, find s.outputs_ X = some outs →
        s'.world.trace = s.world.trace ++ outs.map
          (fun o => (o.obj, "[" ++ time ++ "] - [" ++ convert_to_str X ++ "]\t- "
            ++ "Logger_STOP"))) ∧
      (find s.outputs_ X = none → s'.world = s.world) ∧
      (∀ times, daemon_thread times s' = some s') ∧
      ∀ cs, ∃ s'', run cs s' = some s'' ∧ s''.stop_daemon = true ∧ s''.popped = s'.popped ∧
        s''.world.trace = s'.world.trace ∧ ∀ e ∈ q, e ∈ s''.messages_queue) ∧
    ∀ (u : State) (e : thread.id × String) (q' : List (thread.id × String)) (t : String),
      u.stop_daemon = false → u.messages_queue = e :: q' → e.2 ≠ "Logger_STOP" →
      ∃ u', daemon_step t u = some u' ∧ u'.stop_daemon = false := by
  constructor
  · obtain ⟨s', hs'⟩ := daemon_iteration_total time s
    obtain ⟨h1, h2, _, h4⟩ := daemon_iteration_queue time s s' (X, "Logger_STOP") q hq hs'
    have hstop : s'.stop_daemon = true := by
      rw [h4]
      simp [Lg_STOP]
    refine ⟨s', by simp only [daemon_step, hs, Bool.false_eq_true, if_false]; exact hs',
      hstop, h1, h2, ?_, ?_, fun times => daemon_thread_stopped times s' hstop, ?_⟩
    · intro outs hX
      obtain ⟨r, hr, hit⟩ := daemon_iteration_present time s (X, "Logger_STOP") q outs hq hX
      rw [hit] at hs'
      cases hs'
      have := (write_all_spec _ _ _ _ hr).2
      rw [log_message_eq] at this
      exact this
    · intro hX
      rw [daemon_iteration_absent time s (X, "Logger_STOP") q hq hX] at hs'
      cases hs'
      rfl
    · intro cs
      obtain ⟨s'', hrun, g1, g2, g3⟩ := run_stopped cs s' hstop
      refine ⟨s'', hrun, g1, g2, g3, ?_⟩
      obtain ⟨pushed, hhist⟩ := run_history cs s' s'' hrun
      rw [g2, List.append_assoc] at hhist
      have hqueue := List.append_cancel_left hhist
      intro e he
      rw [hqueue, h1]
      exact List.mem_append_left _ he
  · intro u e q' t hu huq he
    obtain ⟨u', hu'⟩ := daemon_iteration_total t u
    obtain ⟨_, _, _, h4⟩ := daemon_iteration_queue t u u' e q' huq hu'
    refine ⟨u', by simp only [daemon_step, hu, Bool.false_eq_true, if_false]; exact hu', ?_⟩
    rw [h4, hu]
    have : e.2 ≠ Lg_STOP := he
    simp [this]

/-- Witness of C22: the destructor pushes the stop entry on a just started logger and a message
is logged behind it; the second turn of the daemon sets the stop flag and the message stays in
the queue. -/
theorem stop_turn_witness :
    ∃ s0, daemon_step "T0" (add_log ⟨"1"⟩ "late" (destructor ⟨"1"⟩ started)).2 = some s0 ∧
      s0.stop_daemon = false ∧
      s0.messages_queue = [(⟨"1"⟩, "Logger_STOP"), (⟨"1"⟩, "late")] ∧
      ∃ s', daemon_step "T1" s0 = some s' ∧ s'.stop_daemon = true ∧
        s'.messages_queue = [(⟨"1"⟩, "late")] ∧
        daemon_thread ["T2", "T3"] s' = some s' := by
  obtain ⟨s0, h0⟩ := daemon_step_total "T0" (add_log ⟨"1"⟩ "late" (destructor ⟨"1"⟩ started)).2
  have hstop0 : s0.stop_daemon = false := by
    have : (daemon_step "T0" (add_log ⟨"1"⟩ "late" (destructor ⟨"1"⟩ started)).2).map
        (fun u => u.stop_daemon) = some false := by decide
    rw [h0] at this
    simpa using this
  have hq0 : s0.messages_queue = [(⟨"1"⟩, "Logger_STOP"), (⟨"1"⟩, "late")] := by
    have : (daemon_step "T0" (add_log ⟨"1"⟩ "late" (destructor ⟨"1"⟩ started)).2).map
        (fun u => u.messages_queue) = some [(⟨"1"⟩, "Logger_STOP"), (⟨"1"⟩, "late")] := by
      decide
    rw [h0] at this
    simpa using this
  obtain ⟨s', h1, h2, h3, _, _, _, h7, _⟩ :=
    (stop_turn ⟨"1"⟩ "T1" s0 [(⟨"1"⟩, "late")] hstop0 hq0).1
  exact ⟨s0, h0, hstop0, hq0, s', h1, h2, h3, h7 ["T2", "T3"]⟩

end Logger_async
